import Mathlib

/-!
The package `gurl`: reading and editing the components of a URL.

A shallow embedding of `gurl.go`.

* Go strings are modelled by Lean `String`s (sequences of characters).  Every
  separator the package passes to `strings.Split`, `strings.SplitN` and
  `strings.Contains` is a one-byte ASCII string (`"&"`, `"="`, `"?"`, `":"`), so
  the separator is a `Char` here; on well-formed UTF-8 splitting at such a byte
  and splitting at that character agree.
* `net/url` is the standard library, not part of the package: `url.Parse`,
  `(*URL).String`, `(*URL).Query` and `Values.Encode` are the fields of a
  `NetURL` record that every operation takes as a parameter.  What the claims
  on query parameters need of the library is stated where it is used:
  `ReadsBackQuery` (a written URL parses again, with the bindings that were
  encoded) and `EncodesLikeGo` (the encoder is `Values.Encode`, Go's encoder
  with its sort of the keys, for some escaping function).
* A Go function returning `(string, error)` returns a pair
  `String × Option Error`; the surrounding `Option` is `none` exactly when the
  run panics on an index out of range (slice indexing is `xs[i]?`).
-/

namespace Gurl

/-! ## The pieces of `strings` and `path/filepath` that the package calls -/

/-- The function `strings.Split(s, sep)` on character lists, for a one-character
separator: all the pieces between separators, `[[]]` for the empty input. -/
def splitChars (sep : Char) : List Char → List (List Char)
  | [] => [[]]
  | c :: cs =>
    if c = sep then [] :: splitChars sep cs
    else
      match splitChars sep cs with
      | [] => [[c]]
      | piece :: rest => (c :: piece) :: rest

/-- The function `strings.SplitN(s, sep, n)` on character lists, for a
one-character separator and `n ≥ 0`: at most `n` pieces, the last one the
unsplit remainder; no piece at all for `n = 0`. -/
def splitNChars (sep : Char) : Nat → List Char → List (List Char)
  | 0, _ => []
  | 1, cs => [cs]
  | _ + 2, [] => [[]]
  | n + 2, c :: cs =>
    if c = sep then [] :: splitNChars sep (n + 1) cs
    else
      match splitNChars sep (n + 2) cs with
      | [] => [[c]]
      | piece :: rest => (c :: piece) :: rest

/-- Go's `strings.Split(s, sep)` for a one-character `sep`. -/
def strings_Split (s : String) (sep : Char) : List String :=
  (splitChars sep s.data).map String.mk

/-- Go's `strings.SplitN(s, sep, n)` for a one-character `sep` and `n ≥ 0`. -/
def strings_SplitN (s : String) (sep : Char) (n : Nat) : List String :=
  (splitNChars sep n s.data).map String.mk

/-- Go's `strings.Contains(s, sep)` for a one-character `sep`. -/
def strings_Contains (s : String) (sep : Char) : Bool :=
  s.data.contains sep

/-- Go's `strings.HasPrefix(s, pre)`. -/
def strings_HasPrefix (s pre : String) : Bool :=
  pre.data.isPrefixOf s.data

/-- Go's `strings.TrimPrefix(s, pre)`. -/
def strings_TrimPrefix (s pre : String) : String :=
  if strings_HasPrefix s pre then ⟨s.data.drop pre.data.length⟩ else s

/-- Go's `strings.Join(elems, sep)`. -/
def strings_Join : List String → String → String
  | [], _ => ""
  | [a], _ => a
  | a :: b :: rest, sep => a ++ sep ++ strings_Join (b :: rest) sep

/-- Go's `a <= b` on the bytes of two strings, as character lists: the
lexicographic order, which on well-formed UTF-8 is the same by bytes and by
characters. -/
def charsLE : List Char → List Char → Bool
  | [], _ => true
  | _ :: _, [] => false
  | a :: as, b :: bs =>
    if a.toNat < b.toNat then true
    else if b.toNat < a.toNat then false
    else charsLE as bs

/-- Go's `a <= b` on strings. -/
def stringLE (a b : String) : Prop :=
  charsLE a.data b.data = true

instance : DecidableRel stringLE :=
  fun a b => inferInstanceAs (Decidable (charsLE a.data b.data = true))

/-- Go's `a < b` on strings. -/
def stringLT (a b : String) : Prop :=
  stringLE a b ∧ a ≠ b

/-- Go's `slices.Sort` on strings. -/
def slices_Sort (keys : List String) : List String :=
  List.insertionSort stringLE keys

/-- Go's `os.IsPathSeparator` on a Unix build. -/
def os_IsPathSeparator (c : Char) : Bool :=
  c == '/'

/-- The loop of `filepath.Ext`: `rev` holds `path[0..i]` reversed (so its head is
`path[i]`), `suffix` holds `path[i+1..]`. -/
def filepath_Ext.loop : List Char → List Char → List Char
  | [], _ => []
  | c :: rev, suffix =>
    if os_IsPathSeparator c then []
    else if c = '.' then '.' :: suffix
    else filepath_Ext.loop rev (c :: suffix)

/-- Go's `filepath.Ext(path)`: the suffix beginning at the last dot of the last
element of `path`, empty when there is no such dot. -/
def filepath_Ext (path : String) : String :=
  ⟨filepath_Ext.loop path.data.reverse []⟩

/-! ## The pieces of `net/url` -/

/-- Go's `error` values, as far as the package sees them. -/
structure Error where
  msg : String
  deriving DecidableEq, Repr

/-- Go's `url.Userinfo`. -/
structure Userinfo where
  username : String
  password : String
  passwordSet : Bool
  deriving DecidableEq, Repr

/-- Go's `url.URL`. -/
structure URL where
  Scheme : String
  Opaque : String
  User : Option Userinfo
  Host : String
  Path : String
  RawPath : String
  OmitHost : Bool
  ForceQuery : Bool
  RawQuery : String
  Fragment : String
  RawFragment : String
  deriving DecidableEq, Repr

/-- Go's `url.Values`, a `map[string][]string`, as an association list. -/
abbrev Values := List (String × List String)

/-- Go's `Values.Get`: the first value bound to `key`, `""` when there is
none. -/
def Values.Get (v : Values) (key : String) : String :=
  match v.lookup key with
  | none => ""
  | some [] => ""
  | some (x :: _) => x

/-- Go's `Values.Set`: `v[key] = []string{value}`. -/
def Values.Set (v : Values) (key value : String) : Values :=
  (key, [value]) :: v.filter (fun kv => kv.1 != key)

/-- Go's `Values.Del`: `delete(v, key)`. -/
def Values.Del (v : Values) (key : String) : Values :=
  v.filter (fun kv => kv.1 != key)

/-- Go's `v[key]`: the values bound to `key`, none for a key without entry. -/
def Values.bindings (v : Values) (key : String) : List String :=
  (v.lookup key).getD []

/-- Go's `v[key] = append(v[key], value)`, the step of `url.ParseQuery`. -/
def Values.Add (v : Values) (key value : String) : Values :=
  match v.lookup key with
  | none => v ++ [(key, [value])]
  | some _ => v.map (fun kv => if kv.1 = key then (kv.1, kv.2 ++ [value]) else kv)

/-- The keys of a `Values` map, each once. -/
def Values.keys (v : Values) : List String :=
  (v.map Prod.fst).dedup

/-- Go's `Values.Encode`, for the escaping function `escape` (Go's
`url.QueryEscape`): the keys are sorted, and every value of every key gives one
`key=value`, the pieces joined by `&`. -/
def Values.Encode (escape : String → String) (v : Values) : String :=
  strings_Join
    ((slices_Sort v.keys).flatMap (fun key =>
      (v.bindings key).map (fun value => escape key ++ "=" ++ escape value))) "&"

/-- The standard URL facility the package is linked against. -/
structure NetURL where
  /-- Go's `url.Parse`. -/
  url_Parse : String → Except Error URL
  /-- Go's `(*URL).String`. -/
  URL_String : URL → String
  /-- Go's `(*URL).Query`. -/
  URL_Query : URL → Values
  /-- Go's `Values.Encode`. -/
  Values_Encode : Values → String

/-! ## `gurl.go` -/

/-- Source: `parseFragment` (gurl.go 96-107). -/
def parseFragment (fra : String) : Option (String × String) :=
  if strings_Contains fra '?' then do
    let splitFra := strings_SplitN fra '?' 2
    let path ← splitFra[0]?
    let query ← splitFra[1]?
    pure (path, query)
  else if strings_HasPrefix fra "?" then
    pure ("", ⟨fra.data.drop 1⟩)
  else
    pure (fra, "")

/-- The `for` loop of `GetHashParam` (gurl.go 138-143): `some (some v)` when the
loop returns `v`, `some none` when it runs to its end. -/
def GetHashParam.loop (param : String) : List String → Option (Option String)
  | [] => some none
  | p :: rest => do
    let pair := strings_Split p '='
    let key ← pair[0]?
    if key = param ∧ pair.length > 1 then do
      let v ← pair[1]?
      pure (some v)
    else
      GetHashParam.loop param rest

/-- The body of `GetHashParam` after parsing (gurl.go 132-144), on the
fragment. -/
def GetHashParam.ofFragment (fra param : String) : Option String := do
  let (_, fraQuery) ← parseFragment fra
  let hashParams := if fraQuery ≠ "" then strings_Split fraQuery '&' else []
  match ← GetHashParam.loop param hashParams with
  | some v => pure v
  | none => pure ""

/-- Source: `GetHashParam` (gurl.go 127-145). -/
def GetHashParam (env : NetURL) (u param : String) : Option (String × Option Error) :=
  match env.url_Parse u with
  | .error err => some ("", some err)
  | .ok parsedURL => do
    let v ← GetHashParam.ofFragment parsedURL.Fragment param
    pure (v, none)

/-- The `for` loop of `SetHashParam` (gurl.go 179-187), threading
`newHashParams` and `paramExists`. -/
def SetHashParam.loop (param value : String) :
    List String → List String → Bool → Option (List String × Bool)
  | [], newHashParams, paramExists => some (newHashParams, paramExists)
  | p :: rest, newHashParams, paramExists => do
    let pair := strings_Split p '='
    let key ← pair[0]?
    if key = param then
      SetHashParam.loop param value rest (newHashParams ++ [param ++ "=" ++ value]) true
    else
      SetHashParam.loop param value rest (newHashParams ++ [p]) paramExists

/-- The body of `SetHashParam` between parsing and `String()` (gurl.go 171-191):
the value assigned to `parsedURL.Fragment`. -/
def SetHashParam.newFraStr (fra param value : String) : Option String := do
  let (fraPath, fraQuery) ← parseFragment fra
  let hashParams := if fraQuery ≠ "" then strings_Split fraQuery '&' else []
  let (newHashParams, paramExists) ← SetHashParam.loop param value hashParams [] false
  let newHashParams :=
    if !paramExists then newHashParams ++ [param ++ "=" ++ value] else newHashParams
  pure (fraPath ++ "?" ++ strings_Join newHashParams "&")

/-- Source: `SetHashParam` (gurl.go 166-194). -/
def SetHashParam (env : NetURL) (u param value : String) : Option (String × Option Error) :=
  match env.url_Parse u with
  | .error err => some ("", some err)
  | .ok parsedURL => do
    let newFraStr ← SetHashParam.newFraStr parsedURL.Fragment param value
    pure (env.URL_String { parsedURL with Fragment := newFraStr }, none)

/-- The `for` loop of `DelHashParam` (gurl.go 226-231), threading
`newHashParams`. -/
def DelHashParam.loop (param : String) : List String → List String → Option (List String)
  | [], newHashParams => some newHashParams
  | p :: rest, newHashParams => do
    let pair := strings_Split p '='
    let key ← pair[0]?
    if key ≠ param then
      DelHashParam.loop param rest (newHashParams ++ [p])
    else
      DelHashParam.loop param rest newHashParams

/-- The body of `DelHashParam` between parsing and `String()` (gurl.go 219-237):
the value assigned to `parsedURL.Fragment`. -/
def DelHashParam.newFraStr (fra param : String) : Option String := do
  let (fraPath, fraQuery) ← parseFragment fra
  let hashParams := if fraQuery ≠ "" then strings_Split fraQuery '&' else []
  let newHashParams ← DelHashParam.loop param hashParams []
  if newHashParams.length = 0 then
    pure fraPath
  else
    pure (fraPath ++ "?" ++ strings_Join newHashParams "&")

/-- Source: `DelHashParam` (gurl.go 214-240). -/
def DelHashParam (env : NetURL) (u param : String) : Option (String × Option Error) :=
  match env.url_Parse u with
  | .error err => some ("", some err)
  | .ok parsedURL => do
    let newFraStr ← DelHashParam.newFraStr parsedURL.Fragment param
    pure (env.URL_String { parsedURL with Fragment := newFraStr }, none)

/-- Source: `GetQueryParam` (gurl.go 28-35). -/
def GetQueryParam (env : NetURL) (u param : String) : Option (String × Option Error) :=
  match env.url_Parse u with
  | .error err => some ("", some err)
  | .ok parsedURL =>
    let values := env.URL_Query parsedURL
    some (values.Get param, none)

/-- Source: `SetQueryParam` (gurl.go 56-65). -/
def SetQueryParam (env : NetURL) (u param value : String) : Option (String × Option Error) :=
  match env.url_Parse u with
  | .error err => some ("", some err)
  | .ok parsedURL =>
    let values := (env.URL_Query parsedURL).Set param value
    some (env.URL_String { parsedURL with RawQuery := env.Values_Encode values }, none)

/-- Source: `DelQueryParam` (gurl.go 85-94). -/
def DelQueryParam (env : NetURL) (u param : String) : Option (String × Option Error) :=
  match env.url_Parse u with
  | .error err => some ("", some err)
  | .ok parsedURL =>
    let values := (env.URL_Query parsedURL).Del param
    some (env.URL_String { parsedURL with RawQuery := env.Values_Encode values }, none)

/-- Source: `GetPath` (gurl.go 259-265). -/
def GetPath (env : NetURL) (u : String) : Option (String × Option Error) :=
  match env.url_Parse u with
  | .error err => some ("", some err)
  | .ok parsedURL => some (parsedURL.Path, none)

/-- Source: `SetPath` (gurl.go 285-292). -/
def SetPath (env : NetURL) (u newPath : String) : Option (String × Option Error) :=
  match env.url_Parse u with
  | .error err => some ("", some err)
  | .ok parsedURL => some (env.URL_String { parsedURL with Path := newPath }, none)

/-- Source: `GetHost` (gurl.go 311-317). -/
def GetHost (env : NetURL) (u : String) : Option (String × Option Error) :=
  match env.url_Parse u with
  | .error err => some ("", some err)
  | .ok parsedURL => some (parsedURL.Host, none)

/-- Source: `SetHost` (gurl.go 337-344). -/
def SetHost (env : NetURL) (u newHost : String) : Option (String × Option Error) :=
  match env.url_Parse u with
  | .error err => some ("", some err)
  | .ok parsedURL => some (env.URL_String { parsedURL with Host := newHost }, none)

/-- Source: `GetHostname` (gurl.go 363-370). -/
def GetHostname (env : NetURL) (u : String) : Option (String × Option Error) :=
  match env.url_Parse u with
  | .error err => some ("", some err)
  | .ok parsedURL => do
    let hostParts := strings_Split parsedURL.Host ':'
    let hostname ← hostParts[0]?
    pure (hostname, none)

/-- The body of `SetHostname` between parsing and `String()` (gurl.go 395-400):
the value assigned to `parsedURL.Host`. -/
def SetHostname.newHost (host newHostname : String) : Option String :=
  let hostParts := strings_Split host ':'
  if hostParts.length > 1 then do
    let port ← hostParts[1]?
    pure (newHostname ++ ":" ++ port)
  else
    pure newHostname

/-- Source: `SetHostname` (gurl.go 390-402). -/
def SetHostname (env : NetURL) (u newHostname : String) : Option (String × Option Error) :=
  match env.url_Parse u with
  | .error err => some ("", some err)
  | .ok parsedURL => do
    let newHost ← SetHostname.newHost parsedURL.Host newHostname
    pure (env.URL_String { parsedURL with Host := newHost }, none)

/-- Source: `GetProtocol` (gurl.go 421-427). -/
def GetProtocol (env : NetURL) (u : String) : Option (String × Option Error) :=
  match env.url_Parse u with
  | .error err => some ("", some err)
  | .ok parsedURL => do
    let protocol ← (strings_Split parsedURL.Scheme ':')[0]?
    pure (protocol, none)

/-- Source: `SetProtocol` (gurl.go 447-454). -/
def SetProtocol (env : NetURL) (u newProtocol : String) : Option (String × Option Error) :=
  match env.url_Parse u with
  | .error err => some ("", some err)
  | .ok parsedURL => some (env.URL_String { parsedURL with Scheme := newProtocol }, none)

/-- Source: `CheckValid` (gurl.go 470-476). -/
def CheckValid (env : NetURL) (u : String) : Bool :=
  match env.url_Parse u with
  | .error _ => false
  | .ok parsedURL => parsedURL.Scheme != "" && parsedURL.Host != ""

/-- Source: `CheckValidHTTPURL` (gurl.go 492-498). -/
def CheckValidHTTPURL (env : NetURL) (u : String) : Bool :=
  match env.url_Parse u with
  | .error _ => false
  | .ok parsedURL => parsedURL.Scheme == "http" || parsedURL.Scheme == "https"

/-- Source: `GetURLFileType` (gurl.go 517-523). -/
def GetURLFileType (env : NetURL) (u : String) : Option (String × Option Error) :=
  match env.url_Parse u with
  | .error err => some ("", some err)
  | .ok parsedURL => some (strings_TrimPrefix (filepath_Ext parsedURL.Path) ".", none)

/-- Source: `GetBaseURL` (gurl.go 542-551). -/
def GetBaseURL (env : NetURL) (u : String) : Option (String × Option Error) :=
  match env.url_Parse u with
  | .error err => some ("", some err)
  | .ok parsedURL =>
    some (env.URL_String { parsedURL with RawQuery := "", Fragment := "" }, none)

/-! ## Vocabulary of the specification -/

/-- The text of `s` before its first `sep`; the whole of `s` when it has none. -/
def textBefore (sep : Char) (s : String) : String :=
  ⟨s.data.takeWhile (fun c => c != sep)⟩

/-- The text of `s` after its first `sep`; empty when it has none. -/
def textAfter (sep : Char) (s : String) : String :=
  ⟨(s.data.dropWhile (fun c => c != sep)).drop 1⟩

/-- Whether `sep` occurs in `s`. -/
def hasChar (sep : Char) (s : String) : Prop :=
  sep ∈ s.data

instance (sep : Char) (s : String) : Decidable (hasChar sep s) :=
  inferInstanceAs (Decidable (sep ∈ s.data))

/-- The fragment path: the text of the fragment before its first `?`. -/
def fragmentPath (fra : String) : String :=
  textBefore '?' fra

/-- The fragment query: the text of the fragment after its first `?`. -/
def fragmentQuery (fra : String) : String :=
  textAfter '?' fra

/-- The pairs of a fragment: its fragment query cut at every `&`; no pair at all
when the fragment query is empty. -/
def hashPairs (fra : String) : List String :=
  if fragmentQuery fra = "" then [] else strings_Split (fragmentQuery fra) '&'

/-- The key portion of a pair: the text before its first `=`, the whole token
when it has no `=`. -/
def keyPortion (p : String) : String :=
  textBefore '=' p

/-- The value `GetHashParam` reads from a pair: the text between its first and
its second `=`, all the text after the first `=` when there is no second. -/
def pairValue (p : String) : String :=
  textBefore '=' (textAfter '=' p)

/-- A pair `GetHashParam` accepts for `k`: its key portion is `k` and it
contains an `=`. -/
def isValuedPairOf (k p : String) : Prop :=
  keyPortion p = k ∧ hasChar '=' p

instance (k p : String) : Decidable (isValuedPairOf k p) :=
  inferInstanceAs (Decidable (keyPortion p = k ∧ hasChar '=' p))

/-- The pairs `SetHashParam` writes for the pairs `P`: every pair with key
portion `k` replaced in place by `k=v`, and `k=v` appended when there was
none. -/
def setPairs (k v : String) (P : List String) : List String :=
  P.map (fun p => if keyPortion p = k then k ++ "=" ++ v else p) ++
    (if ∃ p ∈ P, keyPortion p = k then [] else [k ++ "=" ++ v])

/-- The pairs `DelHashParam` keeps of the pairs `P`: those whose key portion is
not `k`. -/
def keptPairs (k : String) (P : List String) : List String :=
  P.filter (fun p => decide (keyPortion p ≠ k))

/-- The suffix of `s` that starts at its first `sep`; empty when it has none. -/
def textFrom (sep : Char) (s : String) : String :=
  ⟨s.data.dropWhile (fun c => c != sep)⟩

/-- The last `/`-separated segment of a path. -/
def lastSegment (path : String) : String :=
  ⟨(path.data.reverse.takeWhile (fun c => c != '/')).reverse⟩

/-- The contract of an operation returning `(string, error)`, for the input
`u`: it returns (no panic), its error is present exactly when `url.Parse` fails
on `u`, and the string that comes with an error is empty. -/
def ErrorIffParseFails (env : NetURL) (u : String) (r : Option (String × Option Error)) : Prop :=
  ∃ (s : String) (e : Option Error),
    r = some (s, e) ∧ (e.isSome = true ↔ ∃ err, env.url_Parse u = .error err) ∧
      (e.isSome = true → s = "")

/-- The text of `s` after its last `sep`; empty when it has none. -/
def textAfterLast (sep : Char) (s : String) : String :=
  if hasChar sep s then ⟨(s.data.reverse.takeWhile (fun c => c != sep)).reverse⟩ else ""

/-- The facility encodes a query as Go does: `Values_Encode` is `Values.Encode`
for some escaping function. -/
def EncodesLikeGo (env : NetURL) : Prop :=
  ∃ escape : String → String, ∀ v, env.Values_Encode v = Values.Encode escape v

/-- The facility reads back the URL `written`, whose raw query encodes `vals`:
the rendering of `written` parses, to `back`, and the query of `back` binds every
key to the values `vals` binds it to. -/
def ReadsBackQuery (env : NetURL) (written : URL) (vals : Values) (back : URL) : Prop :=
  env.url_Parse (env.URL_String written) = .ok back ∧
    ∀ key, (env.URL_Query back).bindings key = vals.bindings key

/-! ## A table of `net/url` results for concrete URLs -/

/-- The URL all of whose components are empty. -/
def URL.zero : URL :=
  ⟨"", "", none, "", "", "", false, false, "", "", ""⟩

/-- An `http` URL of host `host`, path `/`, raw query `query` and fragment
`fra`. -/
def URL.http (host query fra : String) : URL :=
  { URL.zero with Scheme := "http", Host := host, Path := "/", RawQuery := query, Fragment := fra }

/-- What `url.Parse` returns, without error, on some URLs. -/
def exampleTable : List (String × URL) :=
  [ ("http://example.com/", URL.http "example.com" "" ""),
    ("http://example.com/#?k=a=b", URL.http "example.com" "" "?k=a=b"),
    ("http://example.com/#?k&k=1&k=2", URL.http "example.com" "" "?k&k=1&k=2"),
    ("http://example.com/#?ssss&p1=1&p2=2&000", URL.http "example.com" "" "?ssss&p1=1&p2=2&000"),
    ("http://example.com/#?t1=1&t2=2", URL.http "example.com" "" "?t1=1&t2=2"),
    ("http://example.com/?t1=1&t2=2", URL.http "example.com" "t1=1&t2=2" ""),
    ("http://example.com/?t0=3&t1=1&t2=2", URL.http "example.com" "t0=3&t1=1&t2=2" ""),
    ("http://example.com/?t2=2", URL.http "example.com" "t2=2" ""),
    ("http://example.com/?233#p3=3&p4=4", URL.http "example.com" "233" "p3=3&p4=4"),
    ("http://example.com/?233#path?t3=3", URL.http "example.com" "233" "path?t3=3"),
    ("http://example.com/#p?", URL.http "example.com" "" "p?"),
    ("http://example.com/#a%2Fb",
      { URL.http "example.com" "" "a/b" with RawFragment := "a%2Fb" }),
    ("http://example.com:8080/", URL.http "example.com:8080" "" ""),
    ("http://[::1]:8080/", URL.http "[::1]:8080" "" ""),
    ("https://example.com/a/b/c.png",
      { URL.zero with Scheme := "https", Host := "example.com", Path := "/a/b/c.png" }),
    ("https://example.com/a.b/c",
      { URL.zero with Scheme := "https", Host := "example.com", Path := "/a.b/c" }),
    ("http:", { URL.zero with Scheme := "http" }),
    ("ftp://example.com/", { URL.zero with Scheme := "ftp", Host := "example.com", Path := "/" }) ]

/-- A `net/url` for the examples.  `url_Parse` answers from `exampleTable`, and
with the error Go gives for `":"` on every other string; `URL_String`,
`URL_Query` (the loop of `url.ParseQuery`) and `Values_Encode` leave out user
information, opaque parts and percent-escaping, which no URL that the examples
render or decode needs. -/
def exampleNet : NetURL where
  url_Parse u :=
    match exampleTable.lookup u with
    | some parsed => .ok parsed
    | none => .error ⟨"missing protocol scheme"⟩
  URL_String p :=
    (if p.Scheme ≠ "" then p.Scheme ++ ":" else "") ++
    (if p.Host ≠ "" ∨ (p.Scheme ≠ "" ∧ p.Path ≠ "") then "//" ++ p.Host else "") ++
    p.Path ++
    (if p.ForceQuery = true ∨ p.RawQuery ≠ "" then "?" ++ p.RawQuery else "") ++
    (if p.Fragment ≠ "" then "#" ++ p.Fragment else "")
  URL_Query p :=
    (strings_Split p.RawQuery '&').foldl
      (fun m kv => if kv = "" then m else m.Add (textBefore '=' kv) (textAfter '=' kv)) []
  Values_Encode v := Values.Encode id v

/-! ## Lemmas on splitting and joining -/

theorem splitChars_unfold (sep : Char) (cs : List Char) :
    splitChars sep cs =
      cs.takeWhile (fun c => c != sep) ::
        (if sep ∈ cs then splitChars sep ((cs.dropWhile (fun c => c != sep)).drop 1) else []) := by
  induction cs with
  | nil => simp [splitChars]
  | cons c cs ih =>
    by_cases h : c = sep
    · subst h
      simp [splitChars, List.takeWhile, List.dropWhile]
    · have h2 : (c != sep) = true := by simpa using h
      have h3 : ¬ sep = c := fun e => h e.symm
      rw [splitChars, if_neg h, ih]
      simp [List.takeWhile, List.dropWhile, h2, h3]

theorem splitChars_ne_nil (sep : Char) (cs : List Char) : splitChars sep cs ≠ [] := by
  rw [splitChars_unfold]; exact List.cons_ne_nil _ _

theorem splitNChars_two (sep : Char) (cs : List Char) :
    splitNChars sep 2 cs =
      if sep ∈ cs then
        [cs.takeWhile (fun c => c != sep), (cs.dropWhile (fun c => c != sep)).drop 1]
      else [cs] := by
  induction cs with
  | nil => simp [splitNChars]
  | cons c cs ih =>
    by_cases h : c = sep
    · subst h
      simp [splitNChars, List.takeWhile, List.dropWhile]
    · have h2 : (c != sep) = true := by simpa using h
      have h3 : ¬ sep = c := fun e => h e.symm
      rw [splitNChars, if_neg h, ih]
      by_cases hm : sep ∈ cs
      · simp [List.takeWhile, List.dropWhile, h2, h3, hm]
      · simp [List.takeWhile, List.dropWhile, h2, h3, hm]

theorem strings_Split_unfold (s : String) (sep : Char) :
    strings_Split s sep =
      textBefore sep s ::
        (if hasChar sep s then strings_Split (textAfter sep s) sep else []) := by
  unfold strings_Split textBefore textAfter hasChar
  rw [splitChars_unfold]
  by_cases h : sep ∈ s.data <;> simp [h]

theorem strings_Split_zero (s : String) (sep : Char) :
    (strings_Split s sep)[0]? = some (textBefore sep s) := by
  rw [strings_Split_unfold]; simp

theorem strings_Split_ne_nil (s : String) (sep : Char) : strings_Split s sep ≠ [] := by
  rw [strings_Split_unfold]; exact List.cons_ne_nil _ _

theorem strings_Split_length (s : String) (sep : Char) :
    (strings_Split s sep).length > 1 ↔ hasChar sep s := by
  rw [strings_Split_unfold]
  by_cases h : hasChar sep s
  · have := List.length_pos.mpr (strings_Split_ne_nil (textAfter sep s) sep)
    simp [h]; omega
  · simp [h]

theorem strings_Split_one (s : String) (sep : Char) (h : hasChar sep s) :
    (strings_Split s sep)[1]? = some (textBefore sep (textAfter sep s)) := by
  rw [strings_Split_unfold, if_pos h]
  simp [strings_Split_zero]

theorem parseFragment_eq (fra : String) :
    parseFragment fra = some (fragmentPath fra, fragmentQuery fra) := by
  unfold parseFragment fragmentPath fragmentQuery textBefore textAfter
  by_cases h : '?' ∈ fra.data
  · simp [strings_Contains, strings_SplitN, splitNChars_two, h]
  · have hp : strings_HasPrefix fra "?" = false := by
      unfold strings_HasPrefix
      cases hd : fra.data with
      | nil => rfl
      | cons c cs =>
        rw [hd] at h
        have hc : ¬ '?' = c := fun e => h (e ▸ List.mem_cons_self _ _)
        show List.isPrefixOf ['?'] (c :: cs) = false
        simp [List.isPrefixOf, hc]
    have ht : fra.data.takeWhile (fun c => c != '?') = fra.data := by
      rw [List.takeWhile_eq_self_iff]
      intro c hc
      have : ¬ c = '?' := fun e => h (e ▸ hc)
      simpa using this
    have hd : fra.data.dropWhile (fun c => c != '?') = [] := by
      rw [List.dropWhile_eq_nil_iff]
      intro c hc
      have : ¬ c = '?' := fun e => h (e ▸ hc)
      simpa using this
    simp [strings_Contains, h, hp, ht, hd]

/-! ## The loops, in closed form -/

theorem hashPairs_eq (fra : String) :
    (if fragmentQuery fra ≠ "" then strings_Split (fragmentQuery fra) '&' else []) =
      hashPairs fra := by
  unfold hashPairs
  by_cases h : fragmentQuery fra = "" <;> simp [h]

theorem GetHashParam_loop_eq (param : String) (P : List String) :
    GetHashParam.loop param P =
      some ((P.find? (fun p => decide (isValuedPairOf param p))).map pairValue) := by
  induction P with
  | nil => rfl
  | cons p rest ih =>
    unfold GetHashParam.loop
    by_cases h : isValuedPairOf param p
    · have h1 := h.1
      have h2 := h.2
      unfold keyPortion at h1
      have hl := (strings_Split_length p '=').mpr h2
      simp [strings_Split_zero, strings_Split_one p '=' h2, h1, hl, List.find?, h, pairValue]
    · have hn : ¬ (textBefore '=' p = param ∧ (strings_Split p '=').length > 1) := by
        rintro ⟨a, b⟩
        exact h ⟨a, (strings_Split_length p '=').mp b⟩
      simp only [strings_Split_zero, Option.bind_eq_bind, Option.some_bind, if_neg hn, ih]
      simp [List.find?, h]

theorem SetHashParam_loop_eq (param value : String) (P acc : List String) (ex : Bool) :
    SetHashParam.loop param value P acc ex =
      some (acc ++ P.map (fun p => if keyPortion p = param then param ++ "=" ++ value else p),
        ex || decide (∃ p ∈ P, keyPortion p = param)) := by
  induction P generalizing acc ex with
  | nil => simp [SetHashParam.loop]
  | cons p rest ih =>
    unfold SetHashParam.loop
    by_cases h : keyPortion p = param
    · have h1 : textBefore '=' p = param := h
      simp [strings_Split_zero, h1, ih, h]
    · have h1 : ¬ textBefore '=' p = param := h
      simp [strings_Split_zero, h1, ih, h]

theorem DelHashParam_loop_eq (param : String) (P acc : List String) :
    DelHashParam.loop param P acc = some (acc ++ keptPairs param P) := by
  induction P generalizing acc with
  | nil => simp [DelHashParam.loop, keptPairs]
  | cons p rest ih =>
    unfold DelHashParam.loop
    by_cases h : keyPortion p = param
    · have h1 : textBefore '=' p = param := h
      simp [strings_Split_zero, h1, ih, h, keptPairs]
    · have h1 : ¬ textBefore '=' p = param := h
      simp [strings_Split_zero, h1, ih, h, keptPairs]

theorem GetHashParam_ofFragment_eq (fra param : String) :
    GetHashParam.ofFragment fra param =
      some ((((hashPairs fra).find? (fun p => decide (isValuedPairOf param p))).map
        pairValue).getD "") := by
  unfold GetHashParam.ofFragment
  simp only [parseFragment_eq, Option.bind_eq_bind, Option.some_bind, hashPairs_eq,
    GetHashParam_loop_eq]
  cases (hashPairs fra).find? (fun p => decide (isValuedPairOf param p)) <;> rfl

theorem SetHashParam_newFraStr_eq (fra param value : String) :
    SetHashParam.newFraStr fra param value =
      some (fragmentPath fra ++ "?" ++ strings_Join (setPairs param value (hashPairs fra)) "&") := by
  unfold SetHashParam.newFraStr
  simp only [parseFragment_eq, Option.bind_eq_bind, Option.some_bind, hashPairs_eq,
    SetHashParam_loop_eq, setPairs]
  by_cases h : ∃ p ∈ hashPairs fra, keyPortion p = param
  · simp [h]
  · simp [h]

theorem DelHashParam_newFraStr_eq (fra param : String) :
    DelHashParam.newFraStr fra param =
      some (if keptPairs param (hashPairs fra) = [] then fragmentPath fra
        else fragmentPath fra ++ "?" ++ strings_Join (keptPairs param (hashPairs fra)) "&") := by
  unfold DelHashParam.newFraStr
  simp only [parseFragment_eq, Option.bind_eq_bind, Option.some_bind, hashPairs_eq,
    DelHashParam_loop_eq]
  by_cases h : keptPairs param (hashPairs fra) = []
  · simp [h]
  · simp [h]

theorem find?_first_match {α : Type} (pred : α → Bool) (pre : List α) (p : α) (post : List α)
    (hpre : ∀ q ∈ pre, pred q = false) (hp : pred p = true) :
    (pre ++ p :: post).find? pred = some p := by
  induction pre with
  | nil => simp [List.find?, hp]
  | cons a rest ih =>
    have ha : pred a = false := hpre a (List.mem_cons_self _ _)
    have hr : ∀ q ∈ rest, pred q = false := fun q hq => hpre q (List.mem_cons_of_mem _ hq)
    simp [List.find?, ha, ih hr]

theorem find?_no_match {α : Type} (pred : α → Bool) (P : List α)
    (h : ∀ q ∈ P, pred q = false) : P.find? pred = none := by
  induction P with
  | nil => rfl
  | cons a rest ih =>
    have ha : pred a = false := h a (List.mem_cons_self _ _)
    have hr : ∀ q ∈ rest, pred q = false := fun q hq => h q (List.mem_cons_of_mem _ hq)
    simp [List.find?, ha, ih hr]

theorem textBefore_of_not_hasChar (sep : Char) (s : String) (h : ¬ hasChar sep s) :
    textBefore sep s = s := by
  unfold textBefore
  have ht : s.data.takeWhile (fun c => c != sep) = s.data := by
    rw [List.takeWhile_eq_self_iff]
    intro c hc
    have : ¬ c = sep := fun e => h (e ▸ hc)
    simpa using this
  rw [ht]

theorem textAfter_of_not_hasChar (sep : Char) (s : String) (h : ¬ hasChar sep s) :
    textAfter sep s = "" := by
  unfold textAfter
  have hd : s.data.dropWhile (fun c => c != sep) = [] := by
    rw [List.dropWhile_eq_nil_iff]
    intro c hc
    have : ¬ c = sep := fun e => h (e ▸ hc)
    simpa using this
  rw [hd]; rfl

theorem GetHashParam_eq (env : NetURL) (u k : String) (url : URL)
    (hparse : env.url_Parse u = .ok url) :
    GetHashParam env u k =
      some ((((hashPairs url.Fragment).find? (fun p => decide (isValuedPairOf k p))).map
        pairValue).getD "", none) := by
  unfold GetHashParam
  rw [hparse]
  simp [GetHashParam_ofFragment_eq]

theorem SetHashParam_eq (env : NetURL) (u k v : String) (url : URL)
    (hparse : env.url_Parse u = .ok url) :
    SetHashParam env u k v =
      some (env.URL_String
        { url with
          Fragment :=
            fragmentPath url.Fragment ++ "?" ++
              strings_Join (setPairs k v (hashPairs url.Fragment)) "&" }, none) := by
  unfold SetHashParam
  rw [hparse]
  simp [SetHashParam_newFraStr_eq]

theorem DelHashParam_eq (env : NetURL) (u k : String) (url : URL)
    (hparse : env.url_Parse u = .ok url) :
    DelHashParam env u k =
      some (env.URL_String
        { url with
          Fragment :=
            if keptPairs k (hashPairs url.Fragment) = [] then fragmentPath url.Fragment
            else
              fragmentPath url.Fragment ++ "?" ++
                strings_Join (keptPairs k (hashPairs url.Fragment)) "&" }, none) := by
  unfold DelHashParam
  rw [hparse]
  simp [DelHashParam_newFraStr_eq]

theorem strings_Join_cons_char (c : Char) (a : List Char) (rest : List String) (sep : String) :
    strings_Join (String.mk (c :: a) :: rest) sep =
      ⟨c :: (strings_Join (String.mk a :: rest) sep).data⟩ := by
  cases rest with
  | nil => rfl
  | cons b r =>
    apply String.ext
    simp [strings_Join, String.data_append]

theorem strings_Join_splitChars (sep : Char) (cs : List Char) :
    strings_Join ((splitChars sep cs).map String.mk) ⟨[sep]⟩ = ⟨cs⟩ := by
  induction cs with
  | nil => rfl
  | cons c cs ih =>
    by_cases h : c = sep
    · subst h
      rw [splitChars, if_pos rfl]
      cases hL : splitChars c cs with
      | nil => exact absurd hL (splitChars_ne_nil c cs)
      | cons a r =>
        rw [hL] at ih
        apply String.ext
        simp only [List.map_cons, strings_Join, String.data_append] at ih ⊢
        rw [ih]
        rfl
    · rw [splitChars, if_neg h]
      cases hL : splitChars sep cs with
      | nil => exact absurd hL (splitChars_ne_nil sep cs)
      | cons a r =>
        rw [hL] at ih
        simp only [List.map_cons] at ih ⊢
        rw [strings_Join_cons_char, ih]

theorem strings_Join_Split (s : String) (sep : Char) :
    strings_Join (strings_Split s sep) ⟨[sep]⟩ = s := by
  unfold strings_Split
  rw [strings_Join_splitChars]

theorem textBefore_append_textAfter (sep : Char) (s : String) (h : hasChar sep s) :
    textBefore sep s ++ ⟨[sep]⟩ ++ textAfter sep s = s := by
  apply String.ext
  unfold textBefore textAfter
  simp only [String.data_append]
  have hsplit := List.takeWhile_append_dropWhile (fun c => c != sep) s.data
  cases hd : s.data.dropWhile (fun c => c != sep) with
  | nil =>
    rw [List.dropWhile_eq_nil_iff] at hd
    have := hd sep h
    simp at this
  | cons c rest =>
    have hc : (c != sep) = false := by
      have := List.head_dropWhile_not (fun c => c != sep) s.data (by rw [hd]; simp)
      simpa [hd] using this
    have hc2 : c = sep := by simpa using hc
    rw [hd, hc2] at hsplit
    simpa using hsplit

theorem not_hasChar_textBefore (sep : Char) (s : String) : ¬ hasChar sep (textBefore sep s) := by
  unfold hasChar textBefore
  intro h
  have := List.mem_takeWhile_imp h
  simp at this

theorem hashPairs_of_not_hasChar (fra : String) (h : ¬ hasChar '?' fra) : hashPairs fra = [] := by
  simp [hashPairs, fragmentQuery, textAfter_of_not_hasChar _ _ h]

theorem SetHostname_newHost_eq (host newHostname : String) :
    SetHostname.newHost host newHostname =
      some (if hasChar ':' host then newHostname ++ ":" ++ textBefore ':' (textAfter ':' host)
        else newHostname) := by
  unfold SetHostname.newHost
  by_cases h : hasChar ':' host
  · have hl := (strings_Split_length host ':').mpr h
    simp [hl, strings_Split_one host ':' h, h]
  · have hl : ¬ (strings_Split host ':').length > 1 := fun hl =>
      h ((strings_Split_length host ':').mp hl)
    simp only [if_neg hl, if_neg h]; rfl

theorem textFrom_eq (sep : Char) (s : String) (h : hasChar sep s) :
    textFrom sep s = ⟨[sep]⟩ ++ textAfter sep s := by
  apply String.ext
  unfold textFrom textAfter
  simp only [String.data_append]
  cases hd : s.data.dropWhile (fun c => c != sep) with
  | nil =>
    rw [List.dropWhile_eq_nil_iff] at hd
    have := hd sep h
    simp at this
  | cons c rest =>
    have hc : (c != sep) = false := by
      have := List.head_dropWhile_not (fun c => c != sep) s.data (by rw [hd]; simp)
      simpa [hd] using this
    have hc2 : c = sep := by simpa using hc
    simp [hc2]

theorem filepath_Ext_loop_nil (rev suffix : List Char)
    (h : '.' ∉ rev.takeWhile (fun c => c != '/')) : filepath_Ext.loop rev suffix = [] := by
  induction rev generalizing suffix with
  | nil => rfl
  | cons c rest ih =>
    unfold filepath_Ext.loop
    by_cases hs : c = '/'
    · simp [os_IsPathSeparator, hs]
    · have hs2 : (c != '/') = true := by simpa using hs
      rw [List.takeWhile_cons, if_pos hs2] at h
      have hdot : ¬ c = '.' := fun e => h (e ▸ List.mem_cons_self _ _)
      have hrest : '.' ∉ rest.takeWhile (fun c => c != '/') :=
        fun hm => h (List.mem_cons_of_mem _ hm)
      simp [os_IsPathSeparator, hs, hdot, ih _ hrest]

theorem errorIffParseFails_of_shape (env : NetURL) (u : String)
    (r : Option (String × Option Error)) (f : URL → String)
    (h : r = match env.url_Parse u with
      | .error err => some ("", some err)
      | .ok parsedURL => some (f parsedURL, none)) :
    ErrorIffParseFails env u r := by
  cases hp : env.url_Parse u with
  | error err =>
    rw [hp] at h
    exact ⟨"", some err, h, by simp [hp], fun _ => rfl⟩
  | ok parsedURL =>
    rw [hp] at h
    exact ⟨f parsedURL, none, h, by simp [hp], by simp⟩

/-! ## The claims -/

/-- C1 fails on the code: the URL `http://example.com/#?k=a=b` parses, its only
pair is `k=a=b`, whose text after the first `=` is `a=b`, and `GetHashParam`
returns `a` for `k`; so `GetHashParam` does not read back the value `a=b` that
`SetHashParam` writes as the pair `k=a=b`. -/
theorem C1_GetHashParam_cuts_value_at_second_eq :
    exampleNet.url_Parse "http://example.com/#?k=a=b" = .ok (URL.http "example.com" "" "?k=a=b") ∧
      hashPairs "?k=a=b" = ["k=a=b"] ∧
      textAfter '=' "k=a=b" = "a=b" ∧
      GetHashParam exampleNet "http://example.com/#?k=a=b" "k" = some ("a", none) ∧
      SetHashParam.newFraStr "" "k" "a=b" = some "?k=a=b" ∧
      GetHashParam.ofFragment "?k=a=b" "k" = some "a" :=
  ⟨rfl, by decide, by decide, by decide, by decide, by decide⟩

/-- C2: for every URL that parses and every key `k`, `GetHashParam` returns the
value of the first pair of the fragment query that has key portion `k` and
contains an `=`, skipping every earlier pair that lacks one of the two (a bare
token `k` among them); when no pair qualifies, and when the fragment has no
query part, it returns the empty string with no error. -/
theorem C2_GetHashParam_selects_first_valued_pair (env : NetURL) (u k : String) (url : URL)
    (hparse : env.url_Parse u = .ok url) :
    (∀ (pre : List String) (p : String) (post : List String),
        hashPairs url.Fragment = pre ++ p :: post →
        (∀ q ∈ pre, ¬ (keyPortion q = k ∧ hasChar '=' q)) →
        keyPortion p = k → hasChar '=' p →
        GetHashParam env u k = some (pairValue p, none)) ∧
      ((∀ q ∈ hashPairs url.Fragment, ¬ (keyPortion q = k ∧ hasChar '=' q)) →
        GetHashParam env u k = some ("", none)) ∧
      (fragmentQuery url.Fragment = "" → GetHashParam env u k = some ("", none)) := by
  refine ⟨?_, ?_, ?_⟩
  · intro pre p post hP hpre hk he
    have hp : isValuedPairOf k p := ⟨hk, he⟩
    have hfind : (hashPairs url.Fragment).find? (fun p => decide (isValuedPairOf k p)) = some p := by
      rw [hP]
      exact find?_first_match _ pre p post
        (fun q hq => by simpa [isValuedPairOf] using hpre q hq) (by simpa using hp)
    rw [GetHashParam_eq env u k url hparse, hfind]; rfl
  · intro hall
    have hfind : (hashPairs url.Fragment).find? (fun p => decide (isValuedPairOf k p)) = none :=
      find?_no_match _ _ (fun q hq => by simpa [isValuedPairOf] using hall q hq)
    rw [GetHashParam_eq env u k url hparse, hfind]; rfl
  · intro hq
    have hnil : hashPairs url.Fragment = [] := by simp [hashPairs, hq]
    rw [GetHashParam_eq env u k url hparse, hnil]; rfl

/-- C2 at the URL `http://example.com/#?k&k=1&k=2`: the bare token `k` is
skipped and the value of the pair `k=1` is returned. -/
theorem C2_GetHashParam_selects_first_valued_pair_witness :
    GetHashParam exampleNet "http://example.com/#?k&k=1&k=2" "k" = some ("1", none) :=
  (C2_GetHashParam_selects_first_valued_pair exampleNet "http://example.com/#?k&k=1&k=2" "k"
    (URL.http "example.com" "" "?k&k=1&k=2") rfl).1 ["k"] "k=1" ["k=2"]
    (by decide) (by decide) (by decide) (by decide)

/-- C3: for every URL that parses, key `k` and value `v`, with `P` the pairs of
the fragment query, the pair list `SetHashParam` joins into the new fragment has
at every index `i < |P|` the text `k=v` when the key portion of `P[i]` is `k`
and `P[i]` itself otherwise, and one more pair `k=v` at the end exactly when no
pair of `P` has key portion `k`; so its length is `|P|` when some pair matched
and `|P| + 1` otherwise. -/
theorem C3_SetHashParam_pairs (env : NetURL) (u k v : String) (url : URL)
    (hparse : env.url_Parse u = .ok url) :
    ∃ newPairs : List String,
      SetHashParam env u k v =
        some (env.URL_String
          { url with
            Fragment := fragmentPath url.Fragment ++ "?" ++ strings_Join newPairs "&" }, none) ∧
      (∀ i (hi : i < (hashPairs url.Fragment).length),
        newPairs[i]? =
          some (if keyPortion ((hashPairs url.Fragment).get ⟨i, hi⟩) = k then k ++ "=" ++ v
            else (hashPairs url.Fragment).get ⟨i, hi⟩)) ∧
      ((∃ p ∈ hashPairs url.Fragment, keyPortion p = k) →
        newPairs.length = (hashPairs url.Fragment).length) ∧
      ((¬ ∃ p ∈ hashPairs url.Fragment, keyPortion p = k) →
        newPairs.length = (hashPairs url.Fragment).length + 1 ∧
        newPairs[(hashPairs url.Fragment).length]? = some (k ++ "=" ++ v)) := by
  refine ⟨setPairs k v (hashPairs url.Fragment), SetHashParam_eq env u k v url hparse, ?_, ?_, ?_⟩
  · intro i hi
    unfold setPairs
    rw [List.getElem?_append_left (by simpa using hi)]
    simp [List.getElem?_map, List.getElem?_eq_getElem hi]
  · intro h
    simp [setPairs, h]
  · intro h
    constructor
    · simp only [setPairs, if_neg h]; simp
    · simp only [setPairs, if_neg h]
      rw [List.getElem?_append_right (by simp)]
      simp

/-- C3 at the URL `http://example.com/#?ssss&p1=1&p2=2&000` of the package's
tests: `p1=1` is replaced in place and the result is the URL the test expects. -/
theorem C3_SetHashParam_pairs_witness :
    ∃ newPairs : List String,
      SetHashParam exampleNet "http://example.com/#?ssss&p1=1&p2=2&000" "p1" "3" =
        some (exampleNet.URL_String
          { URL.http "example.com" "" "?ssss&p1=1&p2=2&000" with
            Fragment := fragmentPath "?ssss&p1=1&p2=2&000" ++ "?" ++ strings_Join newPairs "&" },
          none) ∧
      newPairs.length = 4 :=
  (C3_SetHashParam_pairs exampleNet "http://example.com/#?ssss&p1=1&p2=2&000" "p1" "3"
    (URL.http "example.com" "" "?ssss&p1=1&p2=2&000") rfl).imp
    (fun _ h => ⟨h.1, h.2.2.1 ⟨"p1=1", by decide, by decide⟩⟩)

/-- C4: for every URL that parses, key `k` and value `v`, the fragment
`SetHashParam` writes is the fragment path, then `?`, then the new pairs joined
with `&`, so it contains a `?`; when the old fragment contains no `?` (the empty
fragment included) the new fragment is the old one followed by `?k=v`, whatever
text the old fragment held. -/
theorem C4_SetHashParam_always_inserts_separator (env : NetURL) (u k v : String) (url : URL)
    (hparse : env.url_Parse u = .ok url) :
    SetHashParam env u k v =
        some (env.URL_String
          { url with
            Fragment :=
              fragmentPath url.Fragment ++ "?" ++
                strings_Join (setPairs k v (hashPairs url.Fragment)) "&" }, none) ∧
      hasChar '?'
        (fragmentPath url.Fragment ++ "?" ++
          strings_Join (setPairs k v (hashPairs url.Fragment)) "&") ∧
      (¬ hasChar '?' url.Fragment →
        SetHashParam env u k v =
          some (env.URL_String { url with Fragment := url.Fragment ++ "?" ++ k ++ "=" ++ v },
            none)) := by
  refine ⟨SetHashParam_eq env u k v url hparse, ?_, ?_⟩
  · unfold hasChar
    simp only [String.data_append]
    have : '?' ∈ ("?" : String).data := by decide
    simp [this]
  · intro h
    rw [SetHashParam_eq env u k v url hparse, hashPairs_of_not_hasChar _ h]
    have hpath : fragmentPath url.Fragment = url.Fragment := textBefore_of_not_hasChar _ _ h
    have hjoin : strings_Join (setPairs k v []) "&" = k ++ "=" ++ v := by
      simp [setPairs, strings_Join]
    rw [hpath, hjoin]
    simp [String.append_assoc]

/-- C4 at the URL `http://example.com/?233#p3=3&p4=4` of the package's tests:
the fragment `p3=3&p4=4` has no `?`, and `?p3=4` is appended to it. -/
theorem C4_SetHashParam_always_inserts_separator_witness :
    SetHashParam exampleNet "http://example.com/?233#p3=3&p4=4" "p3" "4" =
      some ("http://example.com/?233#p3=3&p4=4?p3=4", none) :=
  (C4_SetHashParam_always_inserts_separator exampleNet "http://example.com/?233#p3=3&p4=4"
    "p3" "4" (URL.http "example.com" "233" "p3=3&p4=4") rfl).2.2 (by decide)

/-- C5: for every URL that parses and every key `k`, `DelHashParam` keeps
exactly the pairs of the fragment query whose key portion is not `k`, in their
order and unchanged; when none is kept the new fragment is the fragment path,
which holds no `?`, and otherwise it is the fragment path, then `?`, then the
kept pairs joined with `&`. -/
theorem C5_DelHashParam_drops_every_match (env : NetURL) (u k : String) (url : URL)
    (hparse : env.url_Parse u = .ok url) :
    ∃ kept : List String,
      kept = (hashPairs url.Fragment).filter (fun p => decide (keyPortion p ≠ k)) ∧
      (kept = [] →
        DelHashParam env u k =
            some (env.URL_String { url with Fragment := fragmentPath url.Fragment }, none) ∧
          ¬ hasChar '?' (fragmentPath url.Fragment)) ∧
      (kept ≠ [] →
        DelHashParam env u k =
          some (env.URL_String
            { url with
              Fragment := fragmentPath url.Fragment ++ "?" ++ strings_Join kept "&" }, none)) := by
  refine ⟨keptPairs k (hashPairs url.Fragment), rfl, ?_, ?_⟩
  · intro h
    refine ⟨?_, not_hasChar_textBefore _ _⟩
    rw [DelHashParam_eq env u k url hparse, if_pos h]
  · intro h
    rw [DelHashParam_eq env u k url hparse, if_neg h]

/-- C5 at the URL `http://example.com/#?k&k=1&k=2`: the bare token and both
valued pairs of key `k` go, and so does the `?`. -/
theorem C5_DelHashParam_drops_every_match_witness :
    DelHashParam exampleNet "http://example.com/#?k&k=1&k=2" "k" =
      some ("http://example.com/", none) := by
  obtain ⟨kept, hk, hempty, _⟩ :=
    C5_DelHashParam_drops_every_match exampleNet "http://example.com/#?k&k=1&k=2" "k"
      (URL.http "example.com" "" "?k&k=1&k=2") rfl
  have h0 : kept = [] := by rw [hk]; decide
  rw [(hempty h0).1]
  decide

/-- C6, as stated, fails: the URL `http://example.com/#p?` parses, its fragment
`p?` has an empty fragment query and so no pair at all, and `DelHashParam`
for the key `k` writes the fragment `p`, not `p?`. -/
theorem C6_counterexample :
    exampleNet.url_Parse "http://example.com/#p?" = .ok (URL.http "example.com" "" "p?") ∧
      hashPairs "p?" = [] ∧
      DelHashParam.newFraStr "p?" "k" = some "p" ∧
      DelHashParam exampleNet "http://example.com/#p?" "k" =
        some (exampleNet.URL_String (URL.http "example.com" "" "p"), none) ∧
      DelHashParam exampleNet "http://example.com/#p?" "k" = some ("http://example.com/#p", none) :=
  ⟨rfl, by decide, by decide, by decide, by decide⟩

/-- C6, amended: for every URL that parses and every key `k` such that no pair
of the fragment query has key portion `k`, and whose fragment either has a
non-empty fragment query or holds no `?` at all, `DelHashParam` returns the
rendering of the parsed URL itself: scheme, host, path, query and fragment are
those of the input. -/
theorem C6_DelHashParam_absent_key_unchanged (env : NetURL) (u k : String) (url : URL)
    (hparse : env.url_Parse u = .ok url)
    (hno : ∀ p ∈ hashPairs url.Fragment, keyPortion p ≠ k)
    (hfra : fragmentQuery url.Fragment ≠ "" ∨ ¬ hasChar '?' url.Fragment) :
    DelHashParam env u k = some (env.URL_String url, none) := by
  have hkept : keptPairs k (hashPairs url.Fragment) = hashPairs url.Fragment := by
    unfold keptPairs
    rw [List.filter_eq_self]
    intro p hp
    simpa using hno p hp
  rw [DelHashParam_eq env u k url hparse, hkept]
  by_cases hq : hasChar '?' url.Fragment
  · have hne : fragmentQuery url.Fragment ≠ "" := by
      cases hfra with
      | inl h => exact h
      | inr h => exact absurd hq h
    have hP : hashPairs url.Fragment = strings_Split (fragmentQuery url.Fragment) '&' := by
      simp [hashPairs, hne]
    have hnil : hashPairs url.Fragment ≠ [] := by
      rw [hP]; exact strings_Split_ne_nil _ _
    rw [if_neg hnil, hP]
    have hj : strings_Join (strings_Split (fragmentQuery url.Fragment) '&') "&" =
        fragmentQuery url.Fragment := strings_Join_Split _ '&'
    have hf : fragmentPath url.Fragment ++ "?" ++ fragmentQuery url.Fragment = url.Fragment :=
      textBefore_append_textAfter '?' url.Fragment hq
    rw [hj, hf]
  · rw [hashPairs_of_not_hasChar _ hq]
    have hpath : fragmentPath url.Fragment = url.Fragment := textBefore_of_not_hasChar _ _ hq
    simp [hpath]

/-- C6, amended, at the URL `http://example.com/#?t1=1&t2=2` and the key `t3`
of the package's tests. -/
theorem C6_DelHashParam_absent_key_unchanged_witness :
    DelHashParam exampleNet "http://example.com/#?t1=1&t2=2" "t3" =
      some ("http://example.com/#?t1=1&t2=2", none) :=
  C6_DelHashParam_absent_key_unchanged exampleNet "http://example.com/#?t1=1&t2=2" "t3"
    (URL.http "example.com" "" "?t1=1&t2=2") rfl (by decide) (by decide)

/-- C7 fails on the code: the URL `http:` parses with scheme `http` and an
empty host, `CheckValidHTTPURL` accepts it and `CheckValid` rejects it. -/
theorem C7_CheckValidHTTPURL_accepts_empty_host :
    exampleNet.url_Parse "http:" = .ok { URL.zero with Scheme := "http" } ∧
      CheckValidHTTPURL exampleNet "http:" = true ∧
      CheckValid exampleNet "http:" = false :=
  ⟨rfl, by decide, by decide⟩

/-- C8 fails on the code: the URL `http://[::1]:8080/` parses with host
`[::1]:8080`, whose suffix from the first `:` is `::1]:8080`, and `SetHostname`
with the new hostname `example.org` sets the host to `example.org:`, so the port
`8080` is lost; likewise the host `[::1]`, which has no port, becomes
`example.org:`, and `[2001:db8::1]:443` becomes `example.org:db8`. -/
theorem C8_SetHostname_loses_port_after_second_colon :
    exampleNet.url_Parse "http://[::1]:8080/" = .ok (URL.http "[::1]:8080" "" "") ∧
      textFrom ':' "[::1]:8080" = "::1]:8080" ∧
      SetHostname.newHost "[::1]:8080" "example.org" = some "example.org:" ∧
      SetHostname exampleNet "http://[::1]:8080/" "example.org" =
        some ("http://example.org:/", none) ∧
      SetHostname.newHost "[::1]" "example.org" = some "example.org:" ∧
      SetHostname.newHost "[2001:db8::1]:443" "example.org" = some "example.org:db8" :=
  ⟨rfl, by decide, by decide, by decide, by decide, by decide⟩

/-- C9: for every string `u`, `CheckValid` is true exactly when `u` parses with
a non-empty scheme and a non-empty host; `CheckValid` and `CheckValidHTTPURL`
are total, and both are false when parsing fails. -/
theorem C9_CheckValid_iff (env : NetURL) (u : String) :
    (CheckValid env u = true ↔
        ∃ url, env.url_Parse u = .ok url ∧ url.Scheme ≠ "" ∧ url.Host ≠ "") ∧
      (∀ err, env.url_Parse u = .error err →
        CheckValid env u = false ∧ CheckValidHTTPURL env u = false) := by
  constructor
  · unfold CheckValid
    cases hp : env.url_Parse u with
    | error err => simp
    | ok url => simp
  · intro err hp
    simp [CheckValid, CheckValidHTTPURL, hp]

/-- C9 at the string `:`, which does not parse, and at `http://example.com/`,
which does. -/
theorem C9_CheckValid_iff_witness :
    (CheckValid exampleNet ":" = false ∧ CheckValidHTTPURL exampleNet ":" = false) ∧
      CheckValid exampleNet "http://example.com/" = true :=
  ⟨(C9_CheckValid_iff exampleNet ":").2 ⟨"missing protocol scheme"⟩ rfl,
    (C9_CheckValid_iff exampleNet "http://example.com/").1.mpr
      ⟨URL.http "example.com" "" "", rfl, by decide, by decide⟩⟩

/-- C10: each of the sixteen operations that return a string and an error
returns, for every input, an error exactly when `url.Parse` fails on the URL,
and then with the empty string; a key with no binding in the query, a key that
no valued pair of the fragment carries, and a path whose last segment holds no
`.` give the empty string without an error. -/
theorem C10_error_iff_parse_fails (env : NetURL) (u a b : String) :
    (ErrorIffParseFails env u (GetQueryParam env u a) ∧
      ErrorIffParseFails env u (SetQueryParam env u a b) ∧
      ErrorIffParseFails env u (DelQueryParam env u a) ∧
      ErrorIffParseFails env u (GetHashParam env u a) ∧
      ErrorIffParseFails env u (SetHashParam env u a b) ∧
      ErrorIffParseFails env u (DelHashParam env u a) ∧
      ErrorIffParseFails env u (GetPath env u) ∧
      ErrorIffParseFails env u (SetPath env u a) ∧
      ErrorIffParseFails env u (GetHost env u) ∧
      ErrorIffParseFails env u (SetHost env u a) ∧
      ErrorIffParseFails env u (GetHostname env u) ∧
      ErrorIffParseFails env u (SetHostname env u a) ∧
      ErrorIffParseFails env u (GetProtocol env u) ∧
      ErrorIffParseFails env u (SetProtocol env u a) ∧
      ErrorIffParseFails env u (GetURLFileType env u) ∧
      ErrorIffParseFails env u (GetBaseURL env u)) ∧
    (∀ url, env.url_Parse u = .ok url → (env.URL_Query url).lookup a = none →
      GetQueryParam env u a = some ("", none)) ∧
    (∀ url, env.url_Parse u = .ok url →
      (∀ q ∈ hashPairs url.Fragment, ¬ (keyPortion q = a ∧ hasChar '=' q)) →
      GetHashParam env u a = some ("", none)) ∧
    (∀ url, env.url_Parse u = .ok url → ¬ hasChar '.' (lastSegment url.Path) →
      GetURLFileType env u = some ("", none)) := by
  refine ⟨⟨?_, ?_, ?_, ?_, ?_, ?_, ?_, ?_, ?_, ?_, ?_, ?_, ?_, ?_, ?_, ?_⟩, ?_, ?_, ?_⟩
  · exact errorIffParseFails_of_shape env u _ (fun p => (env.URL_Query p).Get a) rfl
  · exact errorIffParseFails_of_shape env u _
      (fun p => env.URL_String
        { p with RawQuery := env.Values_Encode ((env.URL_Query p).Set a b) }) rfl
  · exact errorIffParseFails_of_shape env u _
      (fun p => env.URL_String
        { p with RawQuery := env.Values_Encode ((env.URL_Query p).Del a) }) rfl
  · refine errorIffParseFails_of_shape env u _
      (fun p => (((hashPairs p.Fragment).find? (fun q => decide (isValuedPairOf a q))).map
        pairValue).getD "") ?_
    unfold GetHashParam
    cases env.url_Parse u <;> simp [GetHashParam_ofFragment_eq]
  · refine errorIffParseFails_of_shape env u _
      (fun p => env.URL_String
        { p with
          Fragment :=
            fragmentPath p.Fragment ++ "?" ++
              strings_Join (setPairs a b (hashPairs p.Fragment)) "&" }) ?_
    unfold SetHashParam
    cases env.url_Parse u <;> simp [SetHashParam_newFraStr_eq]
  · refine errorIffParseFails_of_shape env u _
      (fun p => env.URL_String
        { p with
          Fragment :=
            if keptPairs a (hashPairs p.Fragment) = [] then fragmentPath p.Fragment
            else
              fragmentPath p.Fragment ++ "?" ++
                strings_Join (keptPairs a (hashPairs p.Fragment)) "&" }) ?_
    unfold DelHashParam
    cases env.url_Parse u <;> simp [DelHashParam_newFraStr_eq]
  · exact errorIffParseFails_of_shape env u _ (fun p => p.Path) rfl
  · exact errorIffParseFails_of_shape env u _
      (fun p => env.URL_String { p with Path := a }) rfl
  · exact errorIffParseFails_of_shape env u _ (fun p => p.Host) rfl
  · exact errorIffParseFails_of_shape env u _
      (fun p => env.URL_String { p with Host := a }) rfl
  · refine errorIffParseFails_of_shape env u _ (fun p => textBefore ':' p.Host) ?_
    unfold GetHostname
    cases env.url_Parse u <;> simp [strings_Split_zero]
  · refine errorIffParseFails_of_shape env u _
      (fun p => env.URL_String
        { p with
          Host :=
            if hasChar ':' p.Host then a ++ ":" ++ textBefore ':' (textAfter ':' p.Host)
            else a }) ?_
    unfold SetHostname
    cases env.url_Parse u <;> simp [SetHostname_newHost_eq]
  · refine errorIffParseFails_of_shape env u _ (fun p => textBefore ':' p.Scheme) ?_
    unfold GetProtocol
    cases env.url_Parse u <;> simp [strings_Split_zero]
  · exact errorIffParseFails_of_shape env u _
      (fun p => env.URL_String { p with Scheme := a }) rfl
  · exact errorIffParseFails_of_shape env u _
      (fun p => strings_TrimPrefix (filepath_Ext p.Path) ".") rfl
  · exact errorIffParseFails_of_shape env u _
      (fun p => env.URL_String { p with RawQuery := "", Fragment := "" }) rfl
  · intro url hp hk
    simp [GetQueryParam, hp, Values.Get, hk]
  · intro url hp hall
    have hfind : (hashPairs url.Fragment).find? (fun p => decide (isValuedPairOf a p)) = none :=
      find?_no_match _ _ (fun q hq => by simpa [isValuedPairOf] using hall q hq)
    rw [GetHashParam_eq env u a url hp, hfind]; rfl
  · intro url hp hdot
    have hmem : '.' ∉ url.Path.data.reverse.takeWhile (fun c => c != '/') := by
      intro hm
      apply hdot
      unfold hasChar lastSegment
      simpa using hm
    have hext : filepath_Ext url.Path = "" := by
      unfold filepath_Ext
      rw [filepath_Ext_loop_nil _ _ hmem]
    simp only [GetURLFileType, hp, hext]
    rfl

/-- C10 at the string `:`, which does not parse, and at URLs of the table with
no query, no fragment and no file extension. -/
theorem C10_error_iff_parse_fails_witness :
    ErrorIffParseFails exampleNet ":" (SetHashParam exampleNet ":" "k" "v") ∧
      GetQueryParam exampleNet "http://example.com/" "k" = some ("", none) ∧
      GetHashParam exampleNet "http://example.com/#?k&k=1&k=2" "t" = some ("", none) ∧
      GetURLFileType exampleNet "http://example.com/" = some ("", none) :=
  ⟨(C10_error_iff_parse_fails exampleNet ":" "k" "v").1.2.2.2.2.1,
    (C10_error_iff_parse_fails exampleNet "http://example.com/" "k" "v").2.1
      (URL.http "example.com" "" "") rfl rfl,
    (C10_error_iff_parse_fails exampleNet "http://example.com/#?k&k=1&k=2" "t" "v").2.2.1
      (URL.http "example.com" "" "?k&k=1&k=2") rfl (by decide),
    (C10_error_iff_parse_fails exampleNet "http://example.com/" "k" "v").2.2.2
      (URL.http "example.com" "" "") rfl (by decide)⟩

/-! ## Lemmas on writing a fragment and reading it again -/

theorem takeWhile_append_sep (sep : Char) (a t : List Char) (h : sep ∉ a) :
    (a ++ sep :: t).takeWhile (fun c => c != sep) = a := by
  induction a with
  | nil => simp [List.takeWhile]
  | cons c rest ih =>
    have hc : ¬ c = sep := fun e => h (e ▸ List.mem_cons_self _ _)
    have hc2 : (c != sep) = true := by simpa using hc
    have hr : sep ∉ rest := fun hm => h (List.mem_cons_of_mem _ hm)
    simp [List.takeWhile, hc2, ih hr]

theorem dropWhile_append_sep (sep : Char) (a t : List Char) (h : sep ∉ a) :
    (a ++ sep :: t).dropWhile (fun c => c != sep) = sep :: t := by
  induction a with
  | nil => simp [List.dropWhile]
  | cons c rest ih =>
    have hc : ¬ c = sep := fun e => h (e ▸ List.mem_cons_self _ _)
    have hc2 : (c != sep) = true := by simpa using hc
    have hr : sep ∉ rest := fun hm => h (List.mem_cons_of_mem _ hm)
    simp [List.dropWhile, hc2, ih hr]

theorem textBefore_append_sep (sep : Char) (a t : String) (h : ¬ hasChar sep a) :
    textBefore sep (a ++ ⟨[sep]⟩ ++ t) = a := by
  unfold textBefore
  apply String.ext
  simp only [String.data_append, List.append_assoc, List.singleton_append]
  exact takeWhile_append_sep sep a.data t.data h

theorem textAfter_append_sep (sep : Char) (a t : String) (h : ¬ hasChar sep a) :
    textAfter sep (a ++ ⟨[sep]⟩ ++ t) = t := by
  unfold textAfter
  apply String.ext
  simp only [String.data_append, List.append_assoc, List.singleton_append]
  rw [dropWhile_append_sep sep a.data t.data h]
  rfl

theorem hasChar_append_sep (sep : Char) (a t : String) : hasChar sep (a ++ ⟨[sep]⟩ ++ t) := by
  unfold hasChar
  simp [String.data_append]

theorem not_mem_of_mem_splitChars (sep : Char) (cs : List Char) :
    ∀ piece ∈ splitChars sep cs, sep ∉ piece := by
  induction cs with
  | nil => simp [splitChars]
  | cons c cs ih =>
    by_cases h : c = sep
    · subst h
      rw [splitChars, if_pos rfl]
      intro piece hp
      rcases List.mem_cons.mp hp with h1 | h1
      · rw [h1]; simp
      · exact ih piece h1
    · rw [splitChars, if_neg h]
      cases hL : splitChars sep cs with
      | nil => exact absurd hL (splitChars_ne_nil sep cs)
      | cons a r =>
        rw [hL] at ih
        intro piece hp
        rcases List.mem_cons.mp hp with h1 | h1
        · rw [h1]
          intro hm
          rcases List.mem_cons.mp hm with h2 | h2
          · exact h h2.symm
          · exact ih a (List.mem_cons_self _ _) h2
        · exact ih piece (List.mem_cons_of_mem _ h1)

theorem not_hasChar_of_mem_Split (s : String) (sep : Char) :
    ∀ p ∈ strings_Split s sep, ¬ hasChar sep p := by
  intro p hp
  unfold strings_Split at hp
  obtain ⟨piece, hpiece, rfl⟩ := List.mem_map.mp hp
  exact not_mem_of_mem_splitChars sep s.data piece hpiece

theorem strings_Split_Join (sep : Char) (L : List String) (hne : L ≠ [])
    (hL : ∀ p ∈ L, ¬ hasChar sep p) :
    strings_Split (strings_Join L ⟨[sep]⟩) sep = L := by
  induction L with
  | nil => exact absurd rfl hne
  | cons a rest ih =>
    have ha : ¬ hasChar sep a := hL a (List.mem_cons_self _ _)
    cases rest with
    | nil =>
      rw [strings_Join, strings_Split_unfold, if_neg ha, textBefore_of_not_hasChar _ _ ha]
    | cons b r =>
      have hrest : ∀ p ∈ b :: r, ¬ hasChar sep p := fun p hp => hL p (List.mem_cons_of_mem _ hp)
      rw [strings_Join, strings_Split_unfold, if_pos (hasChar_append_sep sep a _),
        textBefore_append_sep sep a _ ha, textAfter_append_sep sep a _ ha,
        ih (List.cons_ne_nil _ _) hrest]

theorem mem_strings_Join (sep : String) (L : List String) (p : String) (c : Char)
    (hp : p ∈ L) (hc : c ∈ p.data) : c ∈ (strings_Join L sep).data := by
  induction L with
  | nil => cases hp
  | cons a rest ih =>
    cases rest with
    | nil =>
      rcases List.mem_cons.mp hp with h1 | h1
      · rw [strings_Join, ← h1]; exact hc
      · cases h1
    | cons b r =>
      rw [strings_Join]
      simp only [String.data_append, List.mem_append]
      rcases List.mem_cons.mp hp with h1 | h1
      · left; left; rw [← h1]; exact hc
      · right; exact ih h1

theorem fragmentPath_written (path query : String) (hpath : ¬ hasChar '?' path) :
    fragmentPath (path ++ "?" ++ query) = path :=
  textBefore_append_sep '?' path query hpath

theorem fragmentQuery_written (path query : String) (hpath : ¬ hasChar '?' path) :
    fragmentQuery (path ++ "?" ++ query) = query :=
  textAfter_append_sep '?' path query hpath

theorem hashPairs_written (path : String) (L : List String) (hpath : ¬ hasChar '?' path)
    (hne : L ≠ []) (hL : ∀ p ∈ L, ¬ hasChar '&' p) (hj : strings_Join L "&" ≠ "") :
    hashPairs (path ++ "?" ++ strings_Join L "&") = L := by
  unfold hashPairs
  rw [fragmentQuery_written path _ hpath, if_neg hj]
  exact strings_Split_Join '&' L hne hL

theorem hashPairs_no_amp (fra : String) : ∀ p ∈ hashPairs fra, ¬ hasChar '&' p := by
  intro p hp
  unfold hashPairs at hp
  by_cases h : fragmentQuery fra = ""
  · rw [if_pos h] at hp; cases hp
  · rw [if_neg h] at hp
    exact not_hasChar_of_mem_Split _ _ p hp

theorem find?_eq_of_unique {α : Type} (pred : α → Bool) (L : List α) (x : α)
    (huniq : ∀ q ∈ L, pred q = true → q = x) (hex : ∃ q ∈ L, pred q = true) :
    L.find? pred = some x := by
  cases h : L.find? pred with
  | none =>
    obtain ⟨q, hq, hpq⟩ := hex
    have := List.find?_eq_none.mp h q hq
    exact absurd hpq this
  | some y =>
    have hy : y ∈ L := List.mem_of_find?_eq_some h
    have hpy : pred y = true := List.find?_some h
    rw [huniq y hy hpy]

theorem keyPortion_written (k v : String) (hk : ¬ hasChar '=' k) :
    keyPortion (k ++ "=" ++ v) = k :=
  textBefore_append_sep '=' k v hk

theorem pairValue_written (k v : String) (hk : ¬ hasChar '=' k) (hv : ¬ hasChar '=' v) :
    pairValue (k ++ "=" ++ v) = v := by
  unfold pairValue
  have h1 : textAfter '=' (k ++ "=" ++ v) = v := textAfter_append_sep '=' k v hk
  rw [h1, textBefore_of_not_hasChar _ _ hv]

theorem hasChar_eq_written (k v : String) : hasChar '=' (k ++ "=" ++ v) :=
  hasChar_append_sep '=' k v

theorem not_hasChar_amp_written (k v : String) (hk : ¬ hasChar '&' k) (hv : ¬ hasChar '&' v) :
    ¬ hasChar '&' (k ++ "=" ++ v) := by
  unfold hasChar at *
  simp only [String.data_append, List.mem_append]
  rintro ((h | h) | h)
  · exact hk h
  · have : ('&' : Char) ∉ ("=" : String).data := by decide
    exact this h
  · exact hv h

theorem written_mem_setPairs (k v : String) (P : List String) :
    k ++ "=" ++ v ∈ setPairs k v P := by
  unfold setPairs
  by_cases h : ∃ p ∈ P, keyPortion p = k
  · obtain ⟨p, hp, hkp⟩ := h
    apply List.mem_append_left
    apply List.mem_map.mpr
    exact ⟨p, hp, by simp [hkp]⟩
  · simp [h]

theorem setPairs_ne_nil (k v : String) (P : List String) : setPairs k v P ≠ [] :=
  List.ne_nil_of_mem (written_mem_setPairs k v P)

theorem mem_setPairs (k v : String) (P : List String) (q : String) (hq : q ∈ setPairs k v P) :
    q = k ++ "=" ++ v ∨ (q ∈ P ∧ keyPortion q ≠ k) := by
  unfold setPairs at hq
  rcases List.mem_append.mp hq with h | h
  · obtain ⟨p, hp, rfl⟩ := List.mem_map.mp h
    by_cases hkp : keyPortion p = k
    · left; simp [hkp]
    · right; simp only [if_neg hkp]; exact ⟨hp, hkp⟩
  · by_cases hex : ∃ p ∈ P, keyPortion p = k
    · rw [if_pos hex] at h; cases h
    · rw [if_neg hex] at h
      left; simpa using h

theorem strings_Join_setPairs_ne (k v : String) (P : List String) :
    strings_Join (setPairs k v P) "&" ≠ "" := by
  intro h
  have hm : '=' ∈ (strings_Join (setPairs k v P) "&").data :=
    mem_strings_Join "&" _ _ '=' (written_mem_setPairs k v P) (hasChar_eq_written k v)
  rw [h] at hm
  cases hm

theorem hashPairs_setPairs (fra k v : String) (hk1 : ¬ hasChar '&' k) (hv : ¬ hasChar '&' v) :
    hashPairs (fragmentPath fra ++ "?" ++ strings_Join (setPairs k v (hashPairs fra)) "&") =
      setPairs k v (hashPairs fra) := by
  apply hashPairs_written _ _ (not_hasChar_textBefore _ _) (setPairs_ne_nil k v _)
  · intro q hq
    rcases mem_setPairs k v _ q hq with h | h
    · rw [h]; exact not_hasChar_amp_written k v hk1 hv
    · exact hashPairs_no_amp fra q h.1
  · exact strings_Join_setPairs_ne k v _

theorem setPairs_def (k v : String) (P : List String) :
    setPairs k v P =
      P.map (fun p => if keyPortion p = k then k ++ "=" ++ v else p) ++
        (if ∃ p ∈ P, keyPortion p = k then [] else [k ++ "=" ++ v]) :=
  rfl

theorem setPairs_setPairs (k v1 v2 : String) (P : List String) (hk : ¬ hasChar '=' k) :
    setPairs k v2 (setPairs k v1 P) = setPairs k v2 P := by
  have hex : ∃ q ∈ setPairs k v1 P, keyPortion q = k :=
    ⟨k ++ "=" ++ v1, written_mem_setPairs k v1 P, keyPortion_written k v1 hk⟩
  have hmap : ∀ p : String,
      (fun q => if keyPortion q = k then k ++ "=" ++ v2 else q)
        ((fun q => if keyPortion q = k then k ++ "=" ++ v1 else q) p) =
      (fun q => if keyPortion q = k then k ++ "=" ++ v2 else q) p := by
    intro p
    by_cases hp : keyPortion p = k
    · simp [hp, keyPortion_written k v1 hk]
    · simp [hp]
  have hmapP : List.map (fun q => if keyPortion q = k then k ++ "=" ++ v2 else q)
      (List.map (fun q => if keyPortion q = k then k ++ "=" ++ v1 else q) P) =
      List.map (fun q => if keyPortion q = k then k ++ "=" ++ v2 else q) P := by
    rw [List.map_map]
    apply List.map_congr_left
    intro p _
    exact hmap p
  rw [setPairs_def k v2 (setPairs k v1 P), if_pos hex, List.append_nil, setPairs_def k v1 P,
    setPairs_def k v2 P]
  by_cases h : ∃ p ∈ P, keyPortion p = k
  · rw [if_pos h, if_pos h, List.append_nil, List.append_nil, hmapP]
  · rw [if_neg h, if_neg h, List.map_append, hmapP]
    simp [keyPortion_written k v1 hk]

theorem not_hasChar_fragmentPath (fra : String) : ¬ hasChar '?' (fragmentPath fra) :=
  not_hasChar_textBefore _ _

theorem fragmentPath_idem (fra : String) : fragmentPath (fragmentPath fra) = fragmentPath fra :=
  textBefore_of_not_hasChar _ _ (not_hasChar_textBefore _ _)

theorem hashPairs_of_query_empty (fra : String) (h : fragmentQuery fra = "") :
    hashPairs fra = [] := by
  unfold hashPairs
  rw [if_pos h]

theorem hashPairs_after_del (fra k : String) :
    ∀ p ∈ hashPairs
        (if keptPairs k (hashPairs fra) = [] then fragmentPath fra
          else fragmentPath fra ++ "?" ++ strings_Join (keptPairs k (hashPairs fra)) "&"),
      keyPortion p ≠ k := by
  intro p hp
  by_cases hkept : keptPairs k (hashPairs fra) = []
  · rw [if_pos hkept, hashPairs_of_not_hasChar _ (not_hasChar_fragmentPath fra)] at hp
    cases hp
  · rw [if_neg hkept] at hp
    by_cases hj : strings_Join (keptPairs k (hashPairs fra)) "&" = ""
    · have hq : fragmentQuery
          (fragmentPath fra ++ "?" ++ strings_Join (keptPairs k (hashPairs fra)) "&") = "" := by
        rw [fragmentQuery_written _ _ (not_hasChar_fragmentPath fra)]
        exact hj
      rw [hashPairs_of_query_empty _ hq] at hp
      cases hp
    · have hamp : ∀ q ∈ keptPairs k (hashPairs fra), ¬ hasChar '&' q := fun q hq =>
        hashPairs_no_amp fra q (List.mem_of_mem_filter hq)
      rw [hashPairs_written _ _ (not_hasChar_fragmentPath fra) hkept hamp hj] at hp
      have := (List.mem_filter.mp hp).2
      simpa using this

theorem filepath_Ext_loop_eq (rev suffix : List Char) :
    filepath_Ext.loop rev suffix =
      if '.' ∈ rev.takeWhile (fun c => c != '/') then
        '.' :: (((rev.takeWhile (fun c => c != '/')).takeWhile (fun c => c != '.')).reverse ++
          suffix)
      else [] := by
  induction rev generalizing suffix with
  | nil => rfl
  | cons c rest ih =>
    unfold filepath_Ext.loop
    by_cases hs : c = '/'
    · simp [os_IsPathSeparator, hs]
    · have hs2 : (c != '/') = true := by simpa using hs
      rw [List.takeWhile_cons, if_pos hs2]
      by_cases hd : c = '.'
      · simp [os_IsPathSeparator, hs, hd]
      · have hd2 : (c != '.') = true := by simpa using hd
        have hd3 : ¬ '.' = c := fun e => hd e.symm
        simp only [os_IsPathSeparator, beq_iff_eq, hs, if_false, hd, ih, List.mem_cons, hd3,
          false_or, List.takeWhile_cons, hd2, if_true, List.reverse_cons, List.append_assoc,
          List.singleton_append]

theorem strings_TrimPrefix_dot (x : List Char) :
    strings_TrimPrefix ⟨'.' :: x⟩ "." = ⟨x⟩ := by
  have h : strings_HasPrefix ⟨'.' :: x⟩ "." = true := by
    show List.isPrefixOf ['.'] ('.' :: x) = true
    simp [List.isPrefixOf]
  unfold strings_TrimPrefix
  rw [if_pos h]
  rfl

theorem GetURLFileType_value (path : String) :
    strings_TrimPrefix (filepath_Ext path) "." = textAfterLast '.' (lastSegment path) := by
  unfold filepath_Ext textAfterLast lastSegment hasChar
  rw [filepath_Ext_loop_eq]
  simp only [List.mem_reverse, List.reverse_reverse, List.append_nil]
  by_cases h : '.' ∈ path.data.reverse.takeWhile (fun c => c != '/')
  · rw [if_pos h, if_pos h]
    exact strings_TrimPrefix_dot _
  · rw [if_neg h, if_neg h]
    rfl

theorem not_hasChar_textAfterLast (sep : Char) (s : String) :
    ¬ hasChar sep (textAfterLast sep s) := by
  unfold textAfterLast
  by_cases h : hasChar sep s
  · rw [if_pos h]
    unfold hasChar
    intro hm
    have := List.mem_takeWhile_imp (List.mem_reverse.mp hm)
    simp at this
  · rw [if_neg h]
    intro hm
    cases hm

/-! ## Lemmas on `url.Values` and on the order of strings -/

theorem Char_eq_of_toNat_eq (a b : Char) (h : a.toNat = b.toNat) : a = b := by
  have := congrArg Char.ofNat h
  simpa using this

theorem charsLE_total (a b : List Char) : charsLE a b = true ∨ charsLE b a = true := by
  induction a generalizing b with
  | nil => left; rfl
  | cons x xs ih =>
    cases b with
    | nil => right; rfl
    | cons y ys =>
      unfold charsLE
      by_cases h1 : x.toNat < y.toNat
      · left; simp [h1]
      · by_cases h2 : y.toNat < x.toNat
        · right; simp [h2]
        · simp only [h1, h2, if_false]
          exact ih ys

theorem charsLE_antisymm (a b : List Char) (hab : charsLE a b = true) (hba : charsLE b a = true) :
    a = b := by
  induction a generalizing b with
  | nil =>
    cases b with
    | nil => rfl
    | cons y ys => simp [charsLE] at hba
  | cons x xs ih =>
    cases b with
    | nil => simp [charsLE] at hab
    | cons y ys =>
      unfold charsLE at hab hba
      by_cases h1 : x.toNat < y.toNat
      · have h2 : ¬ y.toNat < x.toNat := by omega
        simp [h1, h2] at hba
      · by_cases h2 : y.toNat < x.toNat
        · simp [h1, h2] at hab
        · simp only [h1, h2, if_false] at hab hba
          have hxy : x = y := Char_eq_of_toNat_eq x y (by omega)
          rw [hxy, ih ys hab hba]

theorem charsLE_trans (a b c : List Char) (hab : charsLE a b = true) (hbc : charsLE b c = true) :
    charsLE a c = true := by
  induction a generalizing b c with
  | nil => rfl
  | cons x xs ih =>
    cases b with
    | nil => simp [charsLE] at hab
    | cons y ys =>
      cases c with
      | nil => simp [charsLE] at hbc
      | cons z zs =>
        unfold charsLE at hab hbc ⊢
        by_cases h1 : x.toNat < y.toNat
        · by_cases h3 : y.toNat < z.toNat
          · have : x.toNat < z.toNat := by omega
            simp [this]
          · by_cases h4 : z.toNat < y.toNat
            · simp [h3, h4] at hbc
            · have : x.toNat < z.toNat := by omega
              simp [this]
        · by_cases h2 : y.toNat < x.toNat
          · simp [h1, h2] at hab
          · simp only [h1, h2, if_false] at hab
            by_cases h3 : y.toNat < z.toNat
            · have : x.toNat < z.toNat := by omega
              simp [this]
            · by_cases h4 : z.toNat < y.toNat
              · simp [h3, h4] at hbc
              · simp only [h3, h4, if_false] at hbc
                have h5 : ¬ x.toNat < z.toNat := by omega
                have h6 : ¬ z.toNat < x.toNat := by omega
                simp only [h5, h6, if_false]
                exact ih ys zs hab hbc

theorem stringLE_total : IsTotal String stringLE :=
  ⟨fun a b => charsLE_total a.data b.data⟩

theorem stringLE_trans : IsTrans String stringLE :=
  ⟨fun a b c hab hbc => charsLE_trans a.data b.data c.data hab hbc⟩

theorem stringLE_antisymm : IsAntisymm String stringLE :=
  ⟨fun a b hab hba => String.ext (charsLE_antisymm a.data b.data hab hba)⟩

theorem slices_Sort_sorted (keys : List String) : (slices_Sort keys).Sorted stringLE :=
  @List.sorted_insertionSort _ stringLE _ stringLE_total stringLE_trans keys

theorem mem_slices_Sort (keys : List String) (key : String) :
    key ∈ slices_Sort keys ↔ key ∈ keys :=
  List.mem_insertionSort stringLE

theorem slices_Sort_nodup (keys : List String) (h : keys.Nodup) : (slices_Sort keys).Nodup :=
  (List.perm_insertionSort stringLE keys).symm.nodup h

theorem lookup_filter_ne (v : Values) (k key : String) (h : key ≠ k) :
    (v.filter (fun kv => kv.1 != k)).lookup key = v.lookup key := by
  induction v with
  | nil => rfl
  | cons kv rest ih =>
    obtain ⟨a, b⟩ := kv
    rw [List.filter_cons]
    by_cases hak : a = k
    · have hf : ¬ ((a, b).1 != k) = true := by simp [hak]
      have hk : (key == a) = false := by simpa [hak] using h
      rw [if_neg hf, ih]
      simp only [List.lookup_cons, hk]
    · have hf : ((a, b).1 != k) = true := by simpa using hak
      rw [if_pos hf]
      simp only [List.lookup_cons, ih]

theorem lookup_filter_self (v : Values) (k : String) :
    (v.filter (fun kv => kv.1 != k)).lookup k = none := by
  induction v with
  | nil => rfl
  | cons kv rest ih =>
    obtain ⟨a, b⟩ := kv
    rw [List.filter_cons]
    by_cases hak : a = k
    · have hf : ¬ ((a, b).1 != k) = true := by simp [hak]
      rw [if_neg hf, ih]
    · have hf : ((a, b).1 != k) = true := by simpa using hak
      have hk : (k == a) = false := by
        have : ¬ k = a := fun e => hak e.symm
        simpa using this
      rw [if_pos hf]
      simp only [List.lookup_cons, hk, ih]

theorem bindings_Set_self (v : Values) (k x : String) : (v.Set k x).bindings k = [x] := by
  simp [Values.Set, Values.bindings, List.lookup]

theorem bindings_Set_ne (v : Values) (k x key : String) (h : key ≠ k) :
    (v.Set k x).bindings key = v.bindings key := by
  have : (key == k) = false := by simpa using h
  simp [Values.Set, Values.bindings, List.lookup, this, lookup_filter_ne v k key h]

theorem bindings_Del_self (v : Values) (k : String) : (v.Del k).bindings k = [] := by
  simp [Values.Del, Values.bindings, lookup_filter_self]

theorem bindings_Del_ne (v : Values) (k key : String) (h : key ≠ k) :
    (v.Del k).bindings key = v.bindings key := by
  simp [Values.Del, Values.bindings, lookup_filter_ne v k key h]

theorem Values_Get_eq (v : Values) (key : String) : v.Get key = (v.bindings key).headD "" := by
  unfold Values.Get Values.bindings
  cases h : v.lookup key with
  | none => rfl
  | some vs => cases vs <;> rfl

theorem mem_keys_of_bindings_ne (v : Values) (key : String) (h : v.bindings key ≠ []) :
    key ∈ v.keys := by
  unfold Values.keys
  rw [List.mem_dedup]
  unfold Values.bindings at h
  induction v with
  | nil => simp at h
  | cons kv rest ih =>
    obtain ⟨a, b⟩ := kv
    by_cases hka : key = a
    · simp [hka]
    · have hk : (key == a) = false := by simpa using hka
      simp only [List.lookup_cons, hk] at h
      simp [ih h]

theorem flatMap_filter_of_nil {α β : Type} (g : α → List β) (p : α → Bool) (L : List α)
    (h : ∀ x ∈ L, p x = false → g x = []) : L.flatMap g = (L.filter p).flatMap g := by
  induction L with
  | nil => rfl
  | cons x xs ih =>
    have hxs : ∀ y ∈ xs, p y = false → g y = [] := fun y hy => h y (List.mem_cons_of_mem _ hy)
    rw [List.flatMap_cons, List.filter_cons, ih hxs]
    cases hp : p x with
    | true => simp [List.flatMap_cons]
    | false => simp [h x (List.mem_cons_self _ _) hp]

theorem Values_keys_nodup (v : Values) : v.keys.Nodup :=
  List.nodup_dedup _

theorem Values_Encode_congr (escape : String → String) (a b : Values)
    (h : ∀ key, a.bindings key = b.bindings key) :
    Values.Encode escape a = Values.Encode escape b := by
  unfold Values.Encode
  have hg : (fun key => (a.bindings key).map (fun value => escape key ++ "=" ++ escape value)) =
      (fun key => (b.bindings key).map (fun value => escape key ++ "=" ++ escape value)) := by
    funext key
    rw [h key]
  rw [hg]
  have hnil : ∀ (L : List String), ∀ x ∈ L, decide (b.bindings x ≠ []) = false →
      (b.bindings x).map (fun value => escape x ++ "=" ++ escape value) = [] := by
    intro L x _ hx
    have : b.bindings x = [] := by simpa using hx
    rw [this]; rfl
  rw [flatMap_filter_of_nil _ (fun key => decide (b.bindings key ≠ [])) _ (hnil _),
    flatMap_filter_of_nil _ (fun key => decide (b.bindings key ≠ []))
      (slices_Sort b.keys) (hnil _)]
  have hlists : (slices_Sort a.keys).filter (fun key => decide (b.bindings key ≠ [])) =
      (slices_Sort b.keys).filter (fun key => decide (b.bindings key ≠ [])) := by
    haveI := stringLE_antisymm
    apply List.eq_of_perm_of_sorted (r := stringLE)
    · apply (List.perm_ext_iff_of_nodup
        ((slices_Sort_nodup _ (Values_keys_nodup a)).filter _)
        ((slices_Sort_nodup _ (Values_keys_nodup b)).filter _)).mpr
      intro key
      simp only [List.mem_filter, mem_slices_Sort, decide_eq_true_eq]
      constructor
      · rintro ⟨_, hne⟩
        exact ⟨mem_keys_of_bindings_ne b key hne, hne⟩
      · rintro ⟨_, hne⟩
        exact ⟨mem_keys_of_bindings_ne a key (by rw [h key]; exact hne), hne⟩
    · exact (slices_Sort_sorted _).filter _
    · exact (slices_Sort_sorted _).filter _
  rw [hlists]

theorem Values_Encode_keys_ascending (escape : String → String) (v : Values) :
    ∃ keys : List String,
      Values.Encode escape v =
        strings_Join
          (keys.flatMap (fun key =>
            (v.bindings key).map (fun value => escape key ++ "=" ++ escape value))) "&" ∧
      keys.Pairwise stringLT ∧
      ∀ key, key ∈ keys ↔ key ∈ v.map Prod.fst := by
  refine ⟨slices_Sort v.keys, rfl, ?_, ?_⟩
  · exact List.Pairwise.and (slices_Sort_sorted v.keys) (slices_Sort_nodup _ (Values_keys_nodup v))
  · intro key
    rw [mem_slices_Sort, Values.keys, List.mem_dedup]

theorem GetQueryParam_eq (env : NetURL) (u k : String) (url : URL)
    (hparse : env.url_Parse u = .ok url) :
    GetQueryParam env u k = some (((env.URL_Query url).bindings k).headD "", none) := by
  simp [GetQueryParam, hparse, Values_Get_eq]

theorem SetQueryParam_eq (env : NetURL) (u k v : String) (url : URL)
    (hparse : env.url_Parse u = .ok url) :
    SetQueryParam env u k v =
      some (env.URL_String
        { url with RawQuery := env.Values_Encode ((env.URL_Query url).Set k v) }, none) := by
  simp [SetQueryParam, hparse]

theorem DelQueryParam_eq (env : NetURL) (u k : String) (url : URL)
    (hparse : env.url_Parse u = .ok url) :
    DelQueryParam env u k =
      some (env.URL_String
        { url with RawQuery := env.Values_Encode ((env.URL_Query url).Del k) }, none) := by
  simp [DelQueryParam, hparse]

/-! ## The claims, continued -/

/-- C17: for every fragment `f`, `parseFragment` returns a pair `(path, query)`;
when `f` contains `?`, `path` is the text before the first `?`, `query` the text
after it, and `path ++ "?" ++ query = f`; otherwise `path = f` and `query` is
empty; `path` never contains `?`; when `f` starts with `?`, `path` is empty and
`query` is `f` without its first character; and the branch of the code for a
fragment that starts with `?` but does not contain `?` is never taken. -/
theorem C17_parseFragment_splits_at_first_question_mark (f : String) :
    ∃ path query : String,
      parseFragment f = some (path, query) ∧
      (hasChar '?' f →
        path = textBefore '?' f ∧ query = textAfter '?' f ∧ path ++ "?" ++ query = f) ∧
      (¬ hasChar '?' f → path = f ∧ query = "") ∧
      ¬ hasChar '?' path ∧
      (strings_HasPrefix f "?" = true → path = "" ∧ query = ⟨f.data.drop 1⟩) ∧
      ¬ (strings_Contains f '?' = false ∧ strings_HasPrefix f "?" = true) := by
  have hprefix : strings_HasPrefix f "?" = true → ∃ rest, f.data = '?' :: rest := by
    intro h
    unfold strings_HasPrefix at h
    have h2 : List.isPrefixOf ['?'] f.data = true := h
    cases hd : f.data with
    | nil => rw [hd] at h2; simp [List.isPrefixOf] at h2
    | cons c rest =>
      rw [hd] at h2
      have : '?' = c := by simpa [List.isPrefixOf] using h2
      exact ⟨rest, by rw [this]⟩
  refine ⟨fragmentPath f, fragmentQuery f, parseFragment_eq f, ?_, ?_, ?_, ?_, ?_⟩
  · intro h
    exact ⟨rfl, rfl, textBefore_append_textAfter '?' f h⟩
  · intro h
    exact ⟨textBefore_of_not_hasChar _ _ h, textAfter_of_not_hasChar _ _ h⟩
  · exact not_hasChar_textBefore _ _
  · intro h
    obtain ⟨rest, hrest⟩ := hprefix h
    constructor
    · unfold fragmentPath textBefore
      rw [hrest]; rfl
    · unfold fragmentQuery textAfter
      rw [hrest]; rfl
  · rintro ⟨hc, hp⟩
    obtain ⟨rest, hrest⟩ := hprefix hp
    unfold strings_Contains at hc
    rw [hrest] at hc
    simp at hc

/-- C17 at the fragments `path?t3=3` and `?t1=1`. -/
theorem C17_parseFragment_splits_at_first_question_mark_witness :
    parseFragment "path?t3=3" = some ("path", "t3=3") ∧ parseFragment "?t1=1" = some ("", "t1=1") := by
  obtain ⟨path, query, h1, h2, -, -, -, -⟩ :=
    C17_parseFragment_splits_at_first_question_mark "path?t3=3"
  obtain ⟨path2, query2, h3, -, -, -, h4, -⟩ :=
    C17_parseFragment_splits_at_first_question_mark "?t1=1"
  obtain ⟨hp, hq, -⟩ := h2 (by decide)
  obtain ⟨hp2, hq2⟩ := h4 (by decide)
  rw [h1, h3, hp, hq, hp2, hq2]
  decide

/-- C18: for every fragment `f`, every key `k` that contains neither `&` nor
`=` and every value `v` that contains neither `&` nor `=`, `SetHashParam` writes
a fragment from which `GetHashParam` reads `v` for `k`, whatever pairs `f`
held. -/
theorem C18_GetHashParam_reads_what_SetHashParam_wrote (f k v : String)
    (hk1 : ¬ hasChar '&' k) (hk2 : ¬ hasChar '=' k)
    (hv1 : ¬ hasChar '&' v) (hv2 : ¬ hasChar '=' v) :
    ∃ newFra : String,
      SetHashParam.newFraStr f k v = some newFra ∧ GetHashParam.ofFragment newFra k = some v := by
  refine ⟨_, SetHashParam_newFraStr_eq f k v, ?_⟩
  rw [GetHashParam_ofFragment_eq, hashPairs_setPairs f k v hk1 hv1]
  have hfind : (setPairs k v (hashPairs f)).find? (fun p => decide (isValuedPairOf k p)) =
      some (k ++ "=" ++ v) := by
    apply find?_eq_of_unique
    · intro q hq hpq
      rcases mem_setPairs k v _ q hq with h | h
      · exact h
      · have : isValuedPairOf k q := by simpa using hpq
        exact absurd this.1 h.2
    · refine ⟨k ++ "=" ++ v, written_mem_setPairs k v _, ?_⟩
      have : isValuedPairOf k (k ++ "=" ++ v) :=
        ⟨keyPortion_written k v hk2, hasChar_eq_written k v⟩
      simpa using this
  rw [hfind]
  simp [pairValue_written k v hk2 hv2]

/-- C18 at the fragment `?k&k=1&k=2`, where `k` is bare and twice valued. -/
theorem C18_GetHashParam_reads_what_SetHashParam_wrote_witness :
    SetHashParam.newFraStr "?k&k=1&k=2" "k" "v" = some "?k=v&k=v&k=v" ∧
      GetHashParam.ofFragment "?k=v&k=v&k=v" "k" = some "v" := by
  obtain ⟨newFra, h1, h2⟩ :=
    C18_GetHashParam_reads_what_SetHashParam_wrote "?k&k=1&k=2" "k" "v"
      (by decide) (by decide) (by decide) (by decide)
  have h3 : SetHashParam.newFraStr "?k&k=1&k=2" "k" "v" = some "?k=v&k=v&k=v" := by decide
  rw [h3] at h1
  have h4 : newFra = "?k=v&k=v&k=v" := (Option.some.inj h1).symm
  rw [h4] at h2
  exact ⟨h3, h2⟩

/-- C19: for every fragment `f` and every key `k`, the fragment `DelHashParam`
writes has, read again, no pair whose key portion is `k`, and `GetHashParam`
reads the empty string for `k` from it. -/
theorem C19_GetHashParam_empty_after_DelHashParam (f k : String) :
    ∃ newFra : String,
      DelHashParam.newFraStr f k = some newFra ∧
      (∀ p ∈ hashPairs newFra, keyPortion p ≠ k) ∧
      GetHashParam.ofFragment newFra k = some "" := by
  refine ⟨_, DelHashParam_newFraStr_eq f k, hashPairs_after_del f k, ?_⟩
  rw [GetHashParam_ofFragment_eq]
  have hfind := find?_no_match (fun p => decide (isValuedPairOf k p)) _
    (fun q hq => by
      have := hashPairs_after_del f k q hq
      simp [isValuedPairOf, this])
  rw [hfind]
  rfl

/-- C19 at the fragment `x?k&a=1&k=2` and the key `k`. -/
theorem C19_GetHashParam_empty_after_DelHashParam_witness :
    ∃ newFra : String,
      DelHashParam.newFraStr "x?k&a=1&k=2" "k" = some newFra ∧
      (∀ p ∈ hashPairs newFra, keyPortion p ≠ "k") ∧
      GetHashParam.ofFragment newFra "k" = some "" :=
  C19_GetHashParam_empty_after_DelHashParam "x?k&a=1&k=2" "k"

/-- C20: for every fragment `f`, every key `k` that contains neither `&` nor
`=`, every value `v1` that contains no `&` and every value `v2`, setting `k` to
`v1` and then to `v2` writes the fragment that setting `k` to `v2` at once
writes; so setting `k` twice to the same such value writes the same fragment as
setting it once. -/
theorem C20_SetHashParam_last_write_wins (f k v1 v2 : String)
    (hk1 : ¬ hasChar '&' k) (hk2 : ¬ hasChar '=' k) (hv1 : ¬ hasChar '&' v1) :
    ∃ fra1 fra2 : String,
      SetHashParam.newFraStr f k v1 = some fra1 ∧
      SetHashParam.newFraStr fra1 k v2 = some fra2 ∧
      SetHashParam.newFraStr f k v2 = some fra2 ∧
      (v1 = v2 → fra2 = fra1) := by
  refine ⟨_, _, SetHashParam_newFraStr_eq f k v1, ?_, SetHashParam_newFraStr_eq f k v2, ?_⟩
  · rw [SetHashParam_newFraStr_eq, hashPairs_setPairs f k v1 hk1 hv1,
      fragmentPath_written _ _ (not_hasChar_fragmentPath f), setPairs_setPairs k v1 v2 _ hk2]
  · intro h
    rw [h]

/-- C20 at the fragment `p?a=1&k=x=y&k`, the key `k` and the values `1=2` and
`3`. -/
theorem C20_SetHashParam_last_write_wins_witness :
    SetHashParam.newFraStr "p?a=1&k=x=y&k" "k" "1=2" = some "p?a=1&k=1=2&k=1=2" ∧
      SetHashParam.newFraStr "p?a=1&k=1=2&k=1=2" "k" "3" = some "p?a=1&k=3&k=3" ∧
      SetHashParam.newFraStr "p?a=1&k=x=y&k" "k" "3" = some "p?a=1&k=3&k=3" := by
  obtain ⟨fra1, fra2, h1, h2, h3, -⟩ :=
    C20_SetHashParam_last_write_wins "p?a=1&k=x=y&k" "k" "1=2" "3"
      (by decide) (by decide) (by decide)
  have e1 : SetHashParam.newFraStr "p?a=1&k=x=y&k" "k" "1=2" = some "p?a=1&k=1=2&k=1=2" := by
    decide
  have e3 : SetHashParam.newFraStr "p?a=1&k=x=y&k" "k" "3" = some "p?a=1&k=3&k=3" := by decide
  rw [e1] at h1
  rw [e3] at h3
  have hf1 : fra1 = "p?a=1&k=1=2&k=1=2" := (Option.some.inj h1).symm
  have hf2 : fra2 = "p?a=1&k=3&k=3" := (Option.some.inj h3).symm
  rw [hf1, hf2] at h2
  exact ⟨e1, h2, e3⟩

/-- C11: for every URL that parses, key `k` and value `v`, `SetHashParam` and
`DelHashParam` render the parsed URL with nothing but its fragment replaced, so
scheme, host, path and query are those of the input, and the text before the
first `?` of the new fragment is the text before the first `?` of the old one
(the whole old fragment when it holds no `?`). -/
theorem C11_hash_edits_keep_fragment_path (env : NetURL) (u k v : String) (url : URL)
    (hparse : env.url_Parse u = .ok url) :
    (∃ newFra : String,
        SetHashParam.newFraStr url.Fragment k v = some newFra ∧
        SetHashParam env u k v = some (env.URL_String { url with Fragment := newFra }, none) ∧
        textBefore '?' newFra = textBefore '?' url.Fragment ∧
        ({ url with Fragment := newFra } : URL).Scheme = url.Scheme ∧
        ({ url with Fragment := newFra } : URL).Host = url.Host ∧
        ({ url with Fragment := newFra } : URL).Path = url.Path ∧
        ({ url with Fragment := newFra } : URL).RawQuery = url.RawQuery) ∧
      (∃ newFra : String,
        DelHashParam.newFraStr url.Fragment k = some newFra ∧
        DelHashParam env u k = some (env.URL_String { url with Fragment := newFra }, none) ∧
        textBefore '?' newFra = textBefore '?' url.Fragment ∧
        ({ url with Fragment := newFra } : URL).Scheme = url.Scheme ∧
        ({ url with Fragment := newFra } : URL).Host = url.Host ∧
        ({ url with Fragment := newFra } : URL).Path = url.Path ∧
        ({ url with Fragment := newFra } : URL).RawQuery = url.RawQuery) ∧
      (¬ hasChar '?' url.Fragment → textBefore '?' url.Fragment = url.Fragment) := by
  refine ⟨⟨_, SetHashParam_newFraStr_eq _ k v, SetHashParam_eq env u k v url hparse, ?_,
    rfl, rfl, rfl, rfl⟩, ⟨_, DelHashParam_newFraStr_eq _ k, DelHashParam_eq env u k url hparse, ?_,
    rfl, rfl, rfl, rfl⟩, fun h => textBefore_of_not_hasChar _ _ h⟩
  · exact fragmentPath_written _ _ (not_hasChar_textBefore _ _)
  · by_cases hkept : keptPairs k (hashPairs url.Fragment) = []
    · rw [if_pos hkept]
      exact fragmentPath_idem _
    · rw [if_neg hkept]
      exact fragmentPath_written _ _ (not_hasChar_textBefore _ _)

/-- C11 at the URL `http://example.com/?233#path?t3=3` of the package's tests:
setting and deleting `t3` both leave the fragment path `path`. -/
theorem C11_hash_edits_keep_fragment_path_witness :
    SetHashParam exampleNet "http://example.com/?233#path?t3=3" "t3" "4" =
        some ("http://example.com/?233#path?t3=4", none) ∧
      DelHashParam exampleNet "http://example.com/?233#path?t3=3" "t3" =
        some ("http://example.com/?233#path", none) := by
  obtain ⟨⟨fra1, h1, h2, -⟩, ⟨fra2, h3, h4, -⟩, -⟩ :=
    C11_hash_edits_keep_fragment_path exampleNet "http://example.com/?233#path?t3=3" "t3" "4"
      (URL.http "example.com" "233" "path?t3=3") rfl
  have e1 : SetHashParam.newFraStr "path?t3=3" "t3" "4" = some "path?t3=4" := by decide
  have e3 : DelHashParam.newFraStr "path?t3=3" "t3" = some "path" := by decide
  have hf1 : fra1 = "path?t3=4" := (Option.some.inj (h1.symm.trans e1)).symm ▸ rfl
  have hf2 : fra2 = "path" := (Option.some.inj (h3.symm.trans e3)).symm ▸ rfl
  rw [hf1] at h2
  rw [hf2] at h4
  exact ⟨h2, h4⟩

/-- C12: for every URL that parses, `GetBaseURL` renders the parsed URL with
its raw query and its fragment replaced by the empty string and every other
component, scheme, host and path among them, as parsed; clearing twice is
clearing once, so `GetBaseURL` returns its own result again on that result,
whatever URL the facility parses it back to, when the facility renders that URL
as it renders the parsed one once both have the same raw query and no
fragment. -/
theorem C12_GetBaseURL_clears_query_and_fragment (env : NetURL) (u : String) (url : URL)
    (hparse : env.url_Parse u = .ok url) :
    ∃ base : URL,
      GetBaseURL env u = some (env.URL_String base, none) ∧
      base = { url with RawQuery := "", Fragment := "" } ∧
      base.RawQuery = "" ∧ base.Fragment = "" ∧
      base.Scheme = url.Scheme ∧ base.Host = url.Host ∧ base.Path = url.Path ∧
      ({ base with RawQuery := "", Fragment := "" } : URL) = base ∧
      (∀ back : URL, env.url_Parse (env.URL_String base) = .ok back →
        (∀ q : String,
          env.URL_String { back with RawQuery := q, Fragment := "" } =
            env.URL_String { url with RawQuery := q, Fragment := "" }) →
        GetBaseURL env (env.URL_String base) = some (env.URL_String base, none)) := by
  refine ⟨{ url with RawQuery := "", Fragment := "" }, ?_, rfl, rfl, rfl, rfl, rfl, rfl, rfl, ?_⟩
  · simp [GetBaseURL, hparse]
  · intro back hback hsame
    simp [GetBaseURL, hback, hsame ""]

/-- C12 at the URL `http://example.com/?t1=1&t2=2` of the package's tests, and
at the URL `http://example.com/#a%2Fb`, which parses with a raw fragment that
the cleared URL keeps and its rendering does not: in both cases the result is
`http://example.com/`, on which `GetBaseURL` returns it again. -/
theorem C12_GetBaseURL_clears_query_and_fragment_witness :
    GetBaseURL exampleNet "http://example.com/?t1=1&t2=2" = some ("http://example.com/", none) ∧
      GetBaseURL exampleNet "http://example.com/#a%2Fb" = some ("http://example.com/", none) ∧
      GetBaseURL exampleNet "http://example.com/" = some ("http://example.com/", none) := by
  obtain ⟨base, h1, h2, -, -, -, -, -, -, h3⟩ :=
    C12_GetBaseURL_clears_query_and_fragment exampleNet "http://example.com/?t1=1&t2=2"
      (URL.http "example.com" "t1=1&t2=2" "") rfl
  obtain ⟨base2, h4, h5, -, -, -, -, -, -, h6⟩ :=
    C12_GetBaseURL_clears_query_and_fragment exampleNet "http://example.com/#a%2Fb"
      { URL.http "example.com" "" "a/b" with RawFragment := "a%2Fb" } rfl
  subst h2
  subst h5
  exact ⟨h1, h4, h6 (URL.http "example.com" "" "") rfl (fun _ => rfl)⟩

/-- C13: for every URL that parses with path `p`, `GetURLFileType` returns the
text after the last `.` of the last `/`-separated segment of `p`, and the empty
string when that segment holds no `.`; the result holds no `.` and so does not
begin with one. -/
theorem C13_GetURLFileType_extension (env : NetURL) (u : String) (url : URL)
    (hparse : env.url_Parse u = .ok url) :
    GetURLFileType env u = some (textAfterLast '.' (lastSegment url.Path), none) ∧
      (¬ hasChar '.' (lastSegment url.Path) → GetURLFileType env u = some ("", none)) ∧
      ¬ hasChar '.' (textAfterLast '.' (lastSegment url.Path)) ∧
      strings_HasPrefix (textAfterLast '.' (lastSegment url.Path)) "." = false := by
  have hmain : GetURLFileType env u = some (textAfterLast '.' (lastSegment url.Path), none) := by
    simp [GetURLFileType, hparse, GetURLFileType_value]
  have hno := not_hasChar_textAfterLast '.' (lastSegment url.Path)
  refine ⟨hmain, ?_, hno, ?_⟩
  · intro h
    rw [hmain]
    unfold textAfterLast
    rw [if_neg h]
  · unfold strings_HasPrefix
    cases hd : (textAfterLast '.' (lastSegment url.Path)).data with
    | nil => rfl
    | cons c rest =>
      have hc : ¬ '.' = c := by
        intro e
        apply hno
        unfold hasChar
        rw [hd, e]
        exact List.mem_cons_self _ _
      show List.isPrefixOf ['.'] (c :: rest) = false
      simp [List.isPrefixOf, hc]

/-- C13 at the URLs `https://example.com/a/b/c.png` of the package's tests and
`https://example.com/a.b/c`, whose last segment holds no `.`. -/
theorem C13_GetURLFileType_extension_witness :
    GetURLFileType exampleNet "https://example.com/a/b/c.png" = some ("png", none) ∧
      GetURLFileType exampleNet "https://example.com/a.b/c" = some ("", none) :=
  ⟨(C13_GetURLFileType_extension exampleNet "https://example.com/a/b/c.png"
      { URL.zero with Scheme := "https", Host := "example.com", Path := "/a/b/c.png" } rfl).1,
    (C13_GetURLFileType_extension exampleNet "https://example.com/a.b/c"
      { URL.zero with Scheme := "https", Host := "example.com", Path := "/a.b/c" } rfl).2.1
      (by decide)⟩

/-- C14: for every URL `u` that parses, every key `k` and value `v`, when the
facility reads back the URL `SetQueryParam` writes and the URL `DelQueryParam`
then writes, the result of deleting `k` after setting it binds no value to `k`,
`GetQueryParam` returns the empty string for `k` on it, and every other key is
bound in it to the values it is bound to in `u`. -/
theorem C14_DelQueryParam_after_SetQueryParam (env : NetURL) (u k v : String) (url : URL)
    (hparse : env.url_Parse u = .ok url) (back1 back2 : URL)
    (hback1 : ReadsBackQuery env
      { url with RawQuery := env.Values_Encode ((env.URL_Query url).Set k v) }
      ((env.URL_Query url).Set k v) back1)
    (hback2 : ReadsBackQuery env
      { back1 with RawQuery := env.Values_Encode ((env.URL_Query back1).Del k) }
      ((env.URL_Query back1).Del k) back2) :
    ∃ s1 s2 : String,
      SetQueryParam env u k v = some (s1, none) ∧
      DelQueryParam env s1 k = some (s2, none) ∧
      env.url_Parse s2 = .ok back2 ∧
      (env.URL_Query back2).bindings k = [] ∧
      GetQueryParam env s2 k = some ("", none) ∧
      (∀ key, key ≠ k → (env.URL_Query back2).bindings key = (env.URL_Query url).bindings key) := by
  have hk : (env.URL_Query back2).bindings k = [] := by
    rw [hback2.2 k, bindings_Del_self]
  refine ⟨_, _, SetQueryParam_eq env u k v url hparse,
    DelQueryParam_eq env _ k back1 hback1.1, hback2.1, hk, ?_, ?_⟩
  · rw [GetQueryParam_eq env _ k back2 hback2.1, hk]
    rfl
  · intro key hne
    rw [hback2.2 key, bindings_Del_ne _ k key hne, hback1.2 key, bindings_Set_ne _ k v key hne]

/-- C14 at the URL `http://example.com/?t1=1&t2=2`, the key `t0` and the value
`3`. -/
theorem C14_DelQueryParam_after_SetQueryParam_witness :
    SetQueryParam exampleNet "http://example.com/?t1=1&t2=2" "t0" "3" =
        some ("http://example.com/?t0=3&t1=1&t2=2", none) ∧
      DelQueryParam exampleNet "http://example.com/?t0=3&t1=1&t2=2" "t0" =
        some ("http://example.com/?t1=1&t2=2", none) ∧
      GetQueryParam exampleNet "http://example.com/?t1=1&t2=2" "t0" = some ("", none) := by
  obtain ⟨s1, s2, h1, h2, -, -, h3, -⟩ :=
    C14_DelQueryParam_after_SetQueryParam exampleNet "http://example.com/?t1=1&t2=2" "t0" "3"
      (URL.http "example.com" "t1=1&t2=2" "") rfl
      (URL.http "example.com" "t0=3&t1=1&t2=2" "") (URL.http "example.com" "t1=1&t2=2" "")
      ⟨rfl, fun _ => rfl⟩ ⟨rfl, fun _ => rfl⟩
  have e1 : SetQueryParam exampleNet "http://example.com/?t1=1&t2=2" "t0" "3" =
      some ("http://example.com/?t0=3&t1=1&t2=2", none) := by decide
  have hs1 : s1 = "http://example.com/?t0=3&t1=1&t2=2" := by
    have := h1.symm.trans e1
    simpa using this
  subst hs1
  have e2 : DelQueryParam exampleNet "http://example.com/?t0=3&t1=1&t2=2" "t0" =
      some ("http://example.com/?t1=1&t2=2", none) := by decide
  have hs2 : s2 = "http://example.com/?t1=1&t2=2" := by
    have := h2.symm.trans e2
    simpa using this
  subst hs2
  exact ⟨h1, h2, h3⟩

/-- C15: for every URL `u` that parses and every key `k`, when the facility
encodes as Go does, reads back the URL `DelQueryParam` writes, and renders what
it read back as it renders the parsed `u` under every raw query, deleting `k`
from the result of deleting `k` returns that result again. -/
theorem C15_DelQueryParam_idempotent (env : NetURL) (u k : String) (url : URL)
    (hparse : env.url_Parse u = .ok url) (hgo : EncodesLikeGo env) (back : URL)
    (hback : ReadsBackQuery env
      { url with RawQuery := env.Values_Encode ((env.URL_Query url).Del k) }
      ((env.URL_Query url).Del k) back)
    (hsame : ∀ q : String,
      env.URL_String { back with RawQuery := q } = env.URL_String { url with RawQuery := q }) :
    ∃ s1 : String,
      DelQueryParam env u k = some (s1, none) ∧ DelQueryParam env s1 k = some (s1, none) := by
  refine ⟨_, DelQueryParam_eq env u k url hparse, ?_⟩
  rw [DelQueryParam_eq env _ k back hback.1, hsame]
  have hb : ∀ key, ((env.URL_Query back).Del k).bindings key =
      ((env.URL_Query url).Del k).bindings key := by
    intro key
    by_cases hne : key = k
    · rw [hne, bindings_Del_self, bindings_Del_self]
    · rw [bindings_Del_ne _ k key hne, hback.2 key]
  obtain ⟨escape, henc⟩ := hgo
  rw [henc, henc, Values_Encode_congr escape _ _ hb]

/-- C15 at the URL `http://example.com/?t1=1&t2=2` of the package's tests and
the key `t1`. -/
theorem C15_DelQueryParam_idempotent_witness :
    DelQueryParam exampleNet "http://example.com/?t1=1&t2=2" "t1" =
        some ("http://example.com/?t2=2", none) ∧
      DelQueryParam exampleNet "http://example.com/?t2=2" "t1" =
        some ("http://example.com/?t2=2", none) := by
  obtain ⟨s1, h1, h2⟩ :=
    C15_DelQueryParam_idempotent exampleNet "http://example.com/?t1=1&t2=2" "t1"
      (URL.http "example.com" "t1=1&t2=2" "") rfl ⟨id, fun _ => rfl⟩
      (URL.http "example.com" "t2=2" "") ⟨rfl, fun _ => rfl⟩ (fun _ => rfl)
  have e1 : DelQueryParam exampleNet "http://example.com/?t1=1&t2=2" "t1" =
      some ("http://example.com/?t2=2", none) := by decide
  have hs1 : s1 = "http://example.com/?t2=2" := by
    have := h1.symm.trans e1
    simpa using this
  subst hs1
  exact ⟨h1, h2⟩

/-- C16: for every URL `u` that parses, key `k` and value `v`, `SetQueryParam`
renders the parsed URL with its raw query replaced by the encoding of values
that bind `k` to `v` alone and every other key to the values, in their order,
that the query of `u` binds it to; when the facility reads that URL back,
`GetQueryParam` returns `v` for `k` on the result and the other keys are bound
as in `u`; and when the facility encodes as Go does, the raw query lists the
keys in strictly ascending order, each with its values. -/
theorem C16_SetQueryParam_binds_single_value (env : NetURL) (u k v : String) (url : URL)
    (hparse : env.url_Parse u = .ok url) :
    ∃ (vals : Values) (written : URL),
      vals = (env.URL_Query url).Set k v ∧
      written = { url with RawQuery := env.Values_Encode vals } ∧
      SetQueryParam env u k v = some (env.URL_String written, none) ∧
      vals.bindings k = [v] ∧
      (∀ key, key ≠ k → vals.bindings key = (env.URL_Query url).bindings key) ∧
      (∀ back : URL, ReadsBackQuery env written vals back →
        (env.URL_Query back).bindings k = [v] ∧
        GetQueryParam env (env.URL_String written) k = some (v, none) ∧
        ∀ key, key ≠ k → (env.URL_Query back).bindings key = (env.URL_Query url).bindings key) ∧
      (EncodesLikeGo env →
        ∃ (escape : String → String) (keys : List String),
          written.RawQuery =
            strings_Join
              (keys.flatMap (fun key =>
                (vals.bindings key).map (fun value => escape key ++ "=" ++ escape value))) "&" ∧
          keys.Pairwise stringLT ∧
          ∀ key, key ∈ keys ↔ key ∈ vals.map Prod.fst) := by
  refine ⟨_, _, rfl, rfl, SetQueryParam_eq env u k v url hparse, bindings_Set_self _ k v,
    fun key hne => bindings_Set_ne _ k v key hne, ?_, ?_⟩
  · intro back hback
    have hk : (env.URL_Query back).bindings k = [v] := by
      rw [hback.2 k, bindings_Set_self]
    refine ⟨hk, ?_, ?_⟩
    · rw [GetQueryParam_eq env _ k back hback.1, hk]
      rfl
    · intro key hne
      rw [hback.2 key, bindings_Set_ne _ k v key hne]
  · rintro ⟨escape, henc⟩
    obtain ⟨keys, h1, h2, h3⟩ := Values_Encode_keys_ascending escape ((env.URL_Query url).Set k v)
    exact ⟨escape, keys, (henc _).trans h1, h2, h3⟩

/-- C16 at the URL `http://example.com/?t1=1&t2=2` of the package's tests, the
key `t0` and the value `3`: the key `t0` is listed first. -/
theorem C16_SetQueryParam_binds_single_value_witness :
    SetQueryParam exampleNet "http://example.com/?t1=1&t2=2" "t0" "3" =
        some ("http://example.com/?t0=3&t1=1&t2=2", none) ∧
      GetQueryParam exampleNet "http://example.com/?t0=3&t1=1&t2=2" "t0" = some ("3", none) := by
  obtain ⟨vals, written, hv, hw, h1, -, -, h2, -⟩ :=
    C16_SetQueryParam_binds_single_value exampleNet "http://example.com/?t1=1&t2=2" "t0" "3"
      (URL.http "example.com" "t1=1&t2=2" "") rfl
  subst hv
  subst hw
  have h3 := (h2 (URL.http "example.com" "t0=3&t1=1&t2=2" "") ⟨rfl, fun _ => rfl⟩).2.1
  exact ⟨h1, h3⟩

/-! ## No index out of range -/

theorem strings_SplitN_two_length (s : String) (sep : Char) (h : strings_Contains s sep = true) :
    (strings_SplitN s sep 2).length = 2 := by
  have hm : sep ∈ s.data := by simpa [strings_Contains] using h
  simp [strings_SplitN, splitNChars_two, hm]

theorem strings_Split_length_pos (s : String) (sep : Char) : 0 < (strings_Split s sep).length :=
  List.length_pos.mpr (strings_Split_ne_nil s sep)

theorem isSome_of_parse (env : NetURL) (u : String) (f : URL → Option (String × Option Error))
    (h : ∀ url, (f url).isSome = true) :
    (match env.url_Parse u with
      | .error err => some ("", some err)
      | .ok parsedURL => f parsedURL).isSome = true := by
  cases env.url_Parse u with
  | error err => rfl
  | ok url => exact h url

/-- C21: no indexing of the package is out of range.  For every input, the
slice `splitFra` of `parseFragment` has two elements where it is indexed, the
slices `pair`, `hostParts` and the split scheme have an element 0, `pair[1]`
and `hostParts[1]` exist under their guards, and so `parseFragment`, the three
loops over the pairs and the six operations that index a slice all return
without taking the failure branch of an indexing. -/
theorem C21_no_index_out_of_range (env : NetURL) (u a b fra p : String)
    (P acc : List String) (ex : Bool) :
    ((strings_Contains fra '?' = true →
        ((strings_SplitN fra '?' 2)[0]?).isSome = true ∧
        ((strings_SplitN fra '?' 2)[1]?).isSome = true) ∧
      ((strings_Split p '=')[0]?).isSome = true ∧
      ((strings_Split p '=').length > 1 → ((strings_Split p '=')[1]?).isSome = true) ∧
      ((strings_Split p ':')[0]?).isSome = true ∧
      ((strings_Split p ':').length > 1 → ((strings_Split p ':')[1]?).isSome = true)) ∧
    ((parseFragment fra).isSome = true ∧
      (GetHashParam.loop a P).isSome = true ∧
      (SetHashParam.loop a b P acc ex).isSome = true ∧
      (DelHashParam.loop a P acc).isSome = true ∧
      (GetHashParam.ofFragment fra a).isSome = true ∧
      (SetHashParam.newFraStr fra a b).isSome = true ∧
      (DelHashParam.newFraStr fra a).isSome = true ∧
      (SetHostname.newHost p a).isSome = true) ∧
    ((GetHashParam env u a).isSome = true ∧
      (SetHashParam env u a b).isSome = true ∧
      (DelHashParam env u a).isSome = true ∧
      (GetHostname env u).isSome = true ∧
      (SetHostname env u a).isSome = true ∧
      (GetProtocol env u).isSome = true) := by
  refine ⟨⟨?_, ?_, ?_, ?_, ?_⟩, ⟨?_, ?_, ?_, ?_, ?_, ?_, ?_, ?_⟩, ⟨?_, ?_, ?_, ?_, ?_, ?_⟩⟩
  · intro h
    have hl := strings_SplitN_two_length fra '?' h
    constructor
    · rw [List.getElem?_eq_getElem (by omega)]; rfl
    · rw [List.getElem?_eq_getElem (by omega)]; rfl
  · rw [strings_Split_zero]; rfl
  · intro h
    rw [List.getElem?_eq_getElem h]; rfl
  · rw [strings_Split_zero]; rfl
  · intro h
    rw [List.getElem?_eq_getElem h]; rfl
  · rw [parseFragment_eq]; rfl
  · rw [GetHashParam_loop_eq]; rfl
  · rw [SetHashParam_loop_eq]; rfl
  · rw [DelHashParam_loop_eq]; rfl
  · rw [GetHashParam_ofFragment_eq]; rfl
  · rw [SetHashParam_newFraStr_eq]; rfl
  · rw [DelHashParam_newFraStr_eq]; rfl
  · rw [SetHostname_newHost_eq]; rfl
  · unfold GetHashParam
    apply isSome_of_parse
    intro url
    simp [GetHashParam_ofFragment_eq]
  · unfold SetHashParam
    apply isSome_of_parse
    intro url
    simp [SetHashParam_newFraStr_eq]
  · unfold DelHashParam
    apply isSome_of_parse
    intro url
    simp [DelHashParam_newFraStr_eq]
  · unfold GetHostname
    apply isSome_of_parse
    intro url
    simp [strings_Split_zero]
  · unfold SetHostname
    apply isSome_of_parse
    intro url
    simp [SetHostname_newHost_eq]
  · unfold GetProtocol
    apply isSome_of_parse
    intro url
    simp [strings_Split_zero]

/-- C21 at the fragment `?`, the empty pair and the empty host, the inputs on
which the slices are shortest. -/
theorem C21_no_index_out_of_range_witness :
    parseFragment "?" = some ("", "") ∧
      GetHashParam.ofFragment "?&" "" = some "" ∧
      SetHostname.newHost "" "n" = some "n" ∧
      (GetProtocol exampleNet "http:").isSome = true := by
  have h := C21_no_index_out_of_range exampleNet "http:" "" "" "?" "" [] [] false
  exact ⟨by decide, by decide, by decide, h.2.2.2.2.2.2.2⟩

end Gurl
